import Mathlib

/-!
Verification of the Othello strategy module (`src/private/Students/random/strategy.py`).

The board model constants (cell states, the 10x10 linear layout with sentinel
border, the direction offsets, the list of playable squares and the initial
position) live in the external `Othello_Core` module, which is not part of the
repository sources; they are modelled from the specification.  Everything else
is translated directly from `strategy.py`.

Python's `board` is a 100-element list; we embed it as `List Cell` and read it
with `cellAt`, which returns the OUTER sentinel out of range.  (Python would
raise or wrap on a genuinely out-of-range index, but under the border invariant
`boardOk` every index the code reads is in range, so the two agree on the
domain the specification declares in scope.)  Unbounded `while` scans are given
a fuel of 100 steps; under `boardOk` a scan provably stops after at most 9
steps, so the fuel is never exhausted.
-/

namespace Othello

/-- Cell states of the board: EMPTY, BLACK, WHITE and the OUTER border sentinel. -/
inductive Cell where
  | Empty
  | Black
  | White
  | Outer
deriving DecidableEq, Repr

/-- A board is the 100-element list of cell states (index = 10*row + col). -/
abbrev Board := List Cell

/-- Read `board[i]`; out-of-range reads return the OUTER sentinel (see header note). -/
def cellAt (b : Board) (i : Int) : Cell :=
  if i < 0 then Cell.Outer else b.getD i.toNat Cell.Outer

/-- Write `board[i] = v` (no-op out of range; all writes the code performs are in range). -/
def setCell (b : Board) (i : Int) (v : Cell) : Board :=
  if i < 0 then b else b.set i.toNat v

/-- Modelled from the spec: the 8 direction offsets {-11,-10,-9,-1,1,9,10,11}
(`core.DIRECTIONS` of the missing `Othello_Core` module). -/
def DIRECTIONS : List Int := [-11, -10, -9, -1, 1, 9, 10, 11]

/-- Is `i` a playable square index (rows and columns 1..8 of the 10x10 encoding)? -/
def playableB (i : Int) : Bool :=
  11 ≤ i && i ≤ 88 && 1 ≤ i % 10 && i % 10 ≤ 8

/-- Modelled from the spec: the ascending list of playable square indices 11..88
(`self.squares()` of the missing `Othello_Core` module). -/
def squares : List Int :=
  ((List.range 100).map Int.ofNat).filter playableB

/-- Border invariant of §3 of the spec: the board has 100 cells and every
non-playable index holds the OUTER sentinel. -/
def boardOk (b : Board) : Bool :=
  b.length == 100 &&
    (List.range 100).all (fun n => playableB n || (b.getD n Cell.Outer == Cell.Outer))

/-- `opponent(player)`: BLACK if the player is WHITE, else WHITE. -/
def opponent (player : Cell) : Cell :=
  if player = Cell.White then Cell.Black else Cell.White

/-- The `while board[bracket] == opp: bracket += direction` scan of `find_bracket`,
with fuel (the Python loop relies on the OUTER sentinel to stop). -/
def scanWhileOpp (b : Board) (opp : Cell) (d : Int) : Nat → Int → Int
  | 0, pos => pos
  | fuel + 1, pos =>
      if cellAt b pos = opp then scanWhileOpp b opp d fuel (pos + d) else pos

/-- `find_bracket(square, player, board, direction)`: step once; if that cell is the
player's own piece there is no bracket; otherwise scan over opponent pieces and
return the stopping cell unless it is OUTER or EMPTY. -/
def find_bracket (square : Int) (player : Cell) (b : Board) (d : Int) : Option Int :=
  let bracket := square + d
  if cellAt b bracket = player then none
  else
    let stop := scanWhileOpp b (opponent player) d 100 bracket
    if cellAt b stop = Cell.Outer ∨ cellAt b stop = Cell.Empty then none else some stop

/-- Python truthiness of an optional square index: `None` and `0` are falsy.
(`is_legal` uses `any(map(hasbracket, DIRECTIONS))` and `make_flips` uses
`if not bracket`, both of which test truthiness, not `is not None`.) -/
def isTruthy : Option Int → Bool
  | none => false
  | some x => x != 0

/-- `is_legal(move, player, board)`: the target cell is EMPTY and some direction
yields a (truthy) bracket. -/
def is_legal (move : Int) (player : Cell) (b : Board) : Bool :=
  (cellAt b move == Cell.Empty) &&
    DIRECTIONS.any (fun d => isTruthy (find_bracket move player b d))

/-- The structured error of `make_move`: carries the offending player, move and board. -/
structure IllegalMoveError where
  player : Cell
  move : Int
  board : Board
deriving DecidableEq, Repr

/-- The `while square != bracket: board[square] = player; square += direction`
loop of `make_flips`, with fuel. -/
def flipLoop (player : Cell) (d bracket : Int) : Nat → Int → Board → Board
  | 0, _, b => b
  | fuel + 1, square, b =>
      if square = bracket then b
      else flipLoop player d bracket fuel (square + d) (setCell b square player)

/-- `make_flips(move, player, board, direction)`: flip the pieces strictly between
`move` and the bracket (if any) in the given direction. -/
def make_flips (move : Int) (player : Cell) (b : Board) (d : Int) : Board :=
  let bracket := find_bracket move player b d
  if isTruthy bracket = false then b
  else flipLoop player d (bracket.getD 0) 100 (move + d) b

/-- `make_move(move, player, board)`: raise `IllegalMoveError(player, move, board)`
when the move is illegal; otherwise set the move cell to the player and flip in
every direction (the Python loop mutates the board between directions, which the
left fold reproduces). -/
def make_move (move : Int) (player : Cell) (b : Board) : Except IllegalMoveError Board :=
  if is_legal move player b = false then Except.error ⟨player, move, b⟩
  else Except.ok (DIRECTIONS.foldl (fun bb d => make_flips move player bb d) (setCell b move player))

/-- Extract the board of a successful `make_move`; the default is never used by the
searchers because they only apply moves drawn from `legal_moves`. -/
def getOk : Except IllegalMoveError Board → Board → Board
  | Except.ok b, _ => b
  | Except.error _, dflt => dflt

/-- `legal_moves(player, board)`: the playable squares, in board order, that are legal. -/
def legal_moves (player : Cell) (b : Board) : List Int :=
  squares.filter (fun sq => is_legal sq player b)

/-- `any_legal_move(player, board)`. -/
def any_legal_move (player : Cell) (b : Board) : Bool :=
  squares.any (fun sq => is_legal sq player b)

/-- `score(player, board)`: the player's piece count minus the opponent's. -/
def score (player : Cell) (b : Board) : Int :=
  let mt := squares.foldl
    (fun (mt : Int × Int) sq =>
      let piece := cellAt b sq
      if piece = player then (mt.1 + 1, mt.2)
      else if piece = opponent player then (mt.1, mt.2 + 1)
      else mt)
    (0, 0)
  mt.1 - mt.2

/-- The static square-weight table (a 100-entry tunable constant). -/
def SQUARE_WEIGHTS : List Int := [
  0, 0, 0, 0, 0, 0, 0, 0, 0, 0,
  0, 120, -20, 20, 5, 5, 20, -20, 120, 0,
  0, -20, -40, -5, -5, -5, -5, -40, -20, 0,
  0, 20, -5, 15, 3, 3, 15, -5, 20, 0,
  0, 5, -5, 3, 3, 3, 3, -5, 5, 0,
  0, 5, -5, 3, 3, 3, 3, -5, 5, 0,
  0, 20, -5, 15, 3, 3, 15, -5, 20, 0,
  0, -20, -40, -5, -5, -5, -5, -40, -20, 0,
  0, 120, -20, 20, 5, 5, 20, -20, 120, 0,
  0, 0, 0, 0, 0, 0, 0, 0, 0, 0]

/-- `SQUARE_WEIGHTS[sq]` as a total function of the index. -/
def wAt (sq : Int) : Int :=
  if sq < 0 then 0 else SQUARE_WEIGHTS.getD sq.toNat 0

/-- `weighted_score(player, board)`: weight sum of the player's squares minus the
weight sum of the opponent's squares. -/
def weighted_score (player : Cell) (b : Board) : Int :=
  squares.foldl
    (fun total sq =>
      if cellAt b sq = player then total + wAt sq
      else if cellAt b sq = opponent player then total - wAt sq
      else total)
    0

/-- `MAX_VALUE = sum(map(abs, SQUARE_WEIGHTS))`. -/
def MAX_VALUE : Int := (SQUARE_WEIGHTS.map (fun w => |w|)).sum

/-- `MIN_VALUE = -MAX_VALUE`. -/
def MIN_VALUE : Int := -MAX_VALUE

/-- `final_value(player, board)`: MIN_VALUE / MAX_VALUE / the zero difference. -/
def final_value (player : Cell) (b : Board) : Int :=
  let diff := score player b
  if diff < 0 then MIN_VALUE
  else if 0 < diff then MAX_VALUE
  else diff

/-- Python's built-in `max` over a non-empty sequence of `(value, move)` pairs:
lexicographic comparison, keeping the earlier element when two pairs are equal
(pairs of distinct moves are never equal).  The `[]` case is junk: the code
only calls `max` on non-empty sequences. -/
def pyMax (l : List (Int × Int)) : Int × Int :=
  match l with
  | [] => (0, 0)
  | x :: xs =>
      xs.foldl (fun acc y => if acc.1 < y.1 ∨ (acc.1 = y.1 ∧ acc.2 < y.2) then y else acc) x

/-- `minimax(player, board, depth, evaluate)`: returns the pair
`(value, move or None)`.  The recursive calls apply each candidate move to a
fresh copy of the board (`list(board)` in the source), which the purely
functional `make_move` reproduces. -/
def minimax (player : Cell) (b : Board) (depth : Nat) (evaluate : Cell → Board → Int) :
    Int × Option Int :=
  match depth with
  | 0 => (evaluate player b, none)
  | depth' + 1 =>
      let moves := legal_moves player b
      if moves.isEmpty then
        if !any_legal_move (opponent player) b then (final_value player b, none)
        else (-(minimax (opponent player) b depth' evaluate).1, none)
      else
        let best := pyMax (moves.map (fun m =>
          (-(minimax (opponent player) (getOk (make_move m player b) b) depth' evaluate).1, m)))
        (best.1, some best.2)

/-- Stable insertion for `sortDesc`: an element goes after the elements whose
key is strictly larger and before equal-key elements that followed it, exactly
the order the stable `list.sort(key=…, reverse=True)` produces. -/
def insertDesc (key : Int → Int) (x : Int) : List Int → List Int
  | [] => [x]
  | y :: ys => if key x < key y then y :: insertDesc key x ys else x :: y :: ys

/-- Stable sort by descending key: `moves.sort(key=lambda x: SQUARE_WEIGHTS[x], reverse=True)`. -/
def sortDesc (key : Int → Int) : List Int → List Int
  | [] => []
  | x :: xs => insertDesc key x (sortDesc key xs)

/-- The `for move in moves` loop of `alphabeta`, carrying the running `alpha` and
`best_move`; the `if alpha >= beta: break` check sits at the top of every
iteration.  `f m a` is the negated recursive value of move `m` under the
running alpha `a`. -/
def abLoop (beta : Int) (f : Int → Int → Int) : List Int → Int → Int → Int × Int
  | [], alpha, best => (alpha, best)
  | m :: ms, alpha, best =>
      if beta ≤ alpha then (alpha, best)
      else
        let val := f m alpha
        if alpha < val then abLoop beta f ms val m
        else abLoop beta f ms alpha best

/-- `alphabeta(player, board, alpha, beta, depth, evaluate)`: like `minimax` with
an `(alpha, beta)` window, candidate moves pre-sorted by descending static
weight, and a beta cutoff. -/
def alphabeta (player : Cell) (b : Board) (alpha beta : Int) (depth : Nat)
    (evaluate : Cell → Board → Int) : Int × Option Int :=
  match depth with
  | 0 => (evaluate player b, none)
  | depth' + 1 =>
      let moves := sortDesc wAt (legal_moves player b)
      if moves.isEmpty then
        if !any_legal_move (opponent player) b then (final_value player b, none)
        else (-(alphabeta (opponent player) b (-beta) (-alpha) depth' evaluate).1, none)
      else
        let r := abLoop beta
          (fun m a =>
            -(alphabeta (opponent player) (getOk (make_move m player b) b) (-beta) (-a)
                depth' evaluate).1)
          moves alpha (moves.headD 0)
        (r.1, some r.2)

/-- Modelled from the spec: the standard opening position (four centre cells
alternating BLACK/WHITE, the rest of the playable region EMPTY, the border
OUTER), i.e. `core.initial_board()` of the missing `Othello_Core` module. -/
def initial_board : Board :=
  (List.range 100).map (fun n =>
    if n = 44 ∨ n = 55 then Cell.White
    else if n = 45 ∨ n = 54 then Cell.Black
    else if playableB n then Cell.Empty
    else Cell.Outer)

/-- Row component of a direction offset (`d = 10 * dirRow d + dirCol d` on `DIRECTIONS`). -/
def dirRow (d : Int) : Int :=
  if d = -11 ∨ d = -10 ∨ d = -9 then -1 else if d = 9 ∨ d = 10 ∨ d = 11 then 1 else 0

/-- Column component of a direction offset. -/
def dirCol (d : Int) : Int :=
  if d = -11 ∨ d = -1 ∨ d = 9 then -1 else if d = -9 ∨ d = 1 ∨ d = 11 then 1 else 0

/-- Is `i` one of the cells strictly between `move` (exclusive) and `bracket`
(exclusive) along direction `d`?  (Bounded search; the actual bracket distance
is at most 9 steps.) -/
def betweenB (move d bracket i : Int) : Bool :=
  (List.range 100).any (fun j =>
    decide (1 ≤ j) && (i == move + (j : Int) * d) &&
      (List.range 100).any (fun K => decide (j < K) && (bracket == move + (K : Int) * d)))

/-- Is `i` flipped by one of the directions in `ds` (brackets taken on board `b`)? -/
def flippedInB (ds : List Int) (move : Int) (p : Cell) (b : Board) (i : Int) : Bool :=
  ds.any (fun d =>
    match find_bracket move p b d with
    | some br => betweenB move d br i
    | none => false)

/-- Is `i` flipped by `make_move(move, p, ·)` on board `b` in some direction? -/
def flippedB (move : Int) (p : Cell) (b : Board) (i : Int) : Bool :=
  flippedInB DIRECTIONS move p b i

/-- Is `i = move + j*d` for some `j` with `t ≤ j < K`?  (Describes the cells a
partially-run flip loop still writes.) -/
def inFlipRange (move d : Int) (t K : Nat) (i : Int) : Bool :=
  (List.range K).any (fun j => decide (t ≤ j) && (i == move + (j : Int) * d))

/-! ### Monte Carlo engine

The statistics table maps a board key (the concatenation `"".join(board)`,
which is in bijection with the cell list itself, so we key by the list) to the
Python triple `(wins, losses, estimated value)`.  Those values are Python
numbers that can be `math.inf` (the placeholder for unseen keys), so a number
is modelled as `Option ℚ` with `none` standing for `inf`. -/

/-- A Python number as stored in the statistics table: `none` is `math.inf`. -/
abbrev PyFloat := Option ℚ

/-- Addition; `inf + x = x + inf = inf`. -/
def addP : PyFloat → PyFloat → PyFloat
  | some a, some b => some (a + b)
  | _, _ => none

/-- Division; `finite / inf = 0.0`.  (`x / 0` raises in Python and `inf / inf` is
`nan`; neither is reached by the executions analysed here.) -/
def divP : PyFloat → PyFloat → PyFloat
  | some a, some b => some (a / b)
  | some _, none => some 0
  | none, _ => none

/-- Comparison of Python numbers (`inf` is greater than every finite value). -/
def ltP : PyFloat → PyFloat → Bool
  | some a, some b => a < b
  | some _, none => true
  | none, _ => false

/-- A statistics entry `(wins, losses, estimated value)`. -/
abbrev Triple := PyFloat × PyFloat × PyFloat

/-- The statistics table `self.scores` (association list; assignment shadows). -/
abbrev Table := List (Board × Triple)

/-- Dictionary lookup `self.scores[board_s]` / `board_s in self.scores`. -/
def lookupT : Table → Board → Option Triple
  | [], _ => none
  | (k, v) :: t, b => if k = b then some v else lookupT t b

/-- Dictionary assignment `self.scores[board_s] = v`. -/
def insertT (t : Table) (k : Board) (v : Triple) : Table := (k, v) :: t

/-- `update_board_score(board, result)`: read the entry (defaulting to
`(0, 0, inf)`), increment wins or losses by the sign of `result`, and store the
re-estimated value `wins/(wins+losses)`. -/
def update_board_score (t : Table) (b : Board) (result : Int) : Table :=
  let wls := (lookupT t b).getD (some 0, some 0, none)
  let w := wls.1
  let l := wls.2.1
  if 0 < result then
    insertT t b (addP w (some 1), l, divP (addP w (some 1)) (addP (addP w l) (some 1)))
  else
    insertT t b (w, addP l (some 1), divP w (addP (addP w l) (some 1)))

/-! ### Heap embedding of the searchers

Python boards are mutable list objects: `make_move` mutates the object it is
given, and the searchers apply candidate moves to fresh copies (`list(board)`)
of the caller's board.  To state that discipline we embed the searchers a
second time over an explicit heap of board objects: `Ref`s (indices) name
objects, `list(board)` allocates, and `make_move` writes through its `Ref`. -/

/-- The heap of live board objects. -/
abbrev Heap := List Board

/-- Dereference a board object. -/
def readB (h : Heap) (r : Nat) : Board := h.getD r []

/-- Allocate a fresh board object (`list(board)` copies into a new object). -/
def allocB (h : Heap) (bd : Board) : Heap × Nat := (h ++ [bd], h.length)

/-- Overwrite a board object in place. -/
def writeB (h : Heap) (r : Nat) (bd : Board) : Heap := h.set r bd

/-- `make_move` as the in-place mutation of the board object `r`.  The searchers
only call it on legal moves, so `getOk`'s fallback is never taken. -/
def make_moveH (move : Int) (p : Cell) (r : Nat) (h : Heap) : Heap :=
  writeB h r (getOk (make_move move p (readB h r)) (readB h r))

/-- Heap-level `minimax`: every candidate move is applied to a freshly allocated
copy of the caller's object `r` (`list(board)`), and a forced pass recurses on
the same object. -/
def minimaxH (player : Cell) (r : Nat) (depth : Nat) (evaluate : Cell → Board → Int)
    (h : Heap) : (Int × Option Int) × Heap :=
  match depth with
  | 0 => ((evaluate player (readB h r), none), h)
  | depth' + 1 =>
      let moves := legal_moves player (readB h r)
      if moves.isEmpty then
        if !any_legal_move (opponent player) (readB h r) then
          ((final_value player (readB h r), none), h)
        else
          let vh := minimaxH (opponent player) r depth' evaluate h
          ((-vh.1.1, none), vh.2)
      else
        let ph := moves.foldl
          (fun (acc : List (Int × Int) × Heap) m =>
            let ar := allocB acc.2 (readB acc.2 r)
            let h2 := make_moveH m player ar.2 ar.1
            let vh := minimaxH (opponent player) ar.2 depth' evaluate h2
            (acc.1 ++ [(-vh.1.1, m)], vh.2))
          ([], h)
        let best := pyMax ph.1
        ((best.1, some best.2), ph.2)

/-- Heap-level alpha-beta move loop (`f m a h` returns the negated child value
under running alpha `a` together with the heap after the child's search). -/
def abLoopH (beta : Int) (f : Int → Int → Heap → Int × Heap) :
    List Int → Int → Int → Heap → (Int × Int) × Heap
  | [], alpha, best, h => ((alpha, best), h)
  | m :: ms, alpha, best, h =>
      if beta ≤ alpha then ((alpha, best), h)
      else
        let vh := f m alpha h
        if alpha < vh.1 then abLoopH beta f ms vh.1 m vh.2
        else abLoopH beta f ms alpha best vh.2

/-- Heap-level `alphabeta`. -/
def alphabetaH (player : Cell) (r : Nat) (alpha beta : Int) (depth : Nat)
    (evaluate : Cell → Board → Int) (h : Heap) : (Int × Option Int) × Heap :=
  match depth with
  | 0 => ((evaluate player (readB h r), none), h)
  | depth' + 1 =>
      let moves := sortDesc wAt (legal_moves player (readB h r))
      if moves.isEmpty then
        if !any_legal_move (opponent player) (readB h r) then
          ((final_value player (readB h r), none), h)
        else
          let vh := alphabetaH (opponent player) r (-beta) (-alpha) depth' evaluate h
          ((-vh.1.1, none), vh.2)
      else
        let rh := abLoopH beta
          (fun m a hh =>
            let ar := allocB hh (readB hh r)
            let h2 := make_moveH m player ar.2 ar.1
            let vh := alphabetaH (opponent player) ar.2 (-beta) (-a) depth' evaluate h2
            (-vh.1.1, vh.2))
          moves alpha (moves.headD 0) h
        ((rh.1.1, some rh.1.2), rh.2)

/-- Heap-level `random_playout`.  `random.choice` is modelled by consuming one
element of the `rng` stream as an index; the recursion is fuelled (a playout of
the real game ends within the fuel the callers pass). -/
def random_playoutH (rng : List Nat) (fuel : Nat) (player : Cell) (r : Nat) (h : Heap) :
    Int × Heap × List Nat :=
  match fuel with
  | 0 => (0, h, rng)
  | fuel' + 1 =>
      let moves := legal_moves player (readB h r)
      if moves.isEmpty = false then
        let m := moves.getD (rng.headD 0 % moves.length) 0
        let ar := allocB h (readB h r)
        let h2 := make_moveH m player ar.2 ar.1
        let vh := random_playoutH rng.tail fuel' (opponent player) ar.2 h2
        (-vh.1, vh.2)
      else if (legal_moves (opponent player) (readB h r)).isEmpty = false then
        let vh := random_playoutH rng fuel' (opponent player) r h
        (-vh.1, vh.2)
      else
        (score player (readB h r), h, rng)

/-- `random_score(player, board, num)`: read the table entry — the source
unpacks `value, wins, losses = self.scores[board_s]` although entries are
stored as `(wins, losses, estimate)`, so `wins` is bound to the stored losses
and `losses` to the stored estimate — run `num` playouts on the same board
object, count wins and losses, store `(wins, losses, wins/(wins+losses))` and
return `(wins/(wins+losses), wins, wins+losses)`. -/
def random_scoreH (player : Cell) (r : Nat) (num : Nat) (t : Table) (rng : List Nat)
    (fuel : Nat) (h : Heap) : (Triple × Table × List Nat) × Heap :=
  let bd := readB h r
  let wl : PyFloat × PyFloat :=
    match lookupT t bd with
    | some trip => (trip.2.1, trip.2.2)
    | none => (some 0, some 0)
  let res := (List.range num).foldl
    (fun (acc : (PyFloat × PyFloat) × Heap × List Nat) _ =>
      let sh := random_playoutH acc.2.2 fuel player r acc.2.1
      if 0 < sh.1 then ((addP acc.1.1 (some 1), acc.1.2), sh.2.1, sh.2.2)
      else ((acc.1.1, addP acc.1.2 (some 1)), sh.2.1, sh.2.2))
    ((wl.1, wl.2), h, rng)
  let wins := res.1.1
  let losses := res.1.2
  (((divP wins (addP wins losses), wins, addP wins losses),
      insertT t bd (wins, losses, divP wins (addP wins losses)), res.2.2),
    res.2.1)

/-- Heap-level `tree_playout`.  The sort key `lookup_board_score` (a float with
random jitter, an exploration bonus `1/sqrt(w+l)` and the `inf` sentinel) is
abstracted by the `pick` oracle choosing which move the sort put first; the
board copies the sort's key evaluation allocates and mutates are modelled
faithfully. -/
def tree_playoutH (pick : List Int → Nat) (fuel : Nat) (player : Cell) (r : Nat)
    (t : Table) (h : Heap) : (Int × Table) × Heap :=
  match fuel with
  | 0 => ((0, t), h)
  | fuel' + 1 =>
      let moves := legal_moves player (readB h r)
      if moves.isEmpty = false then
        let hsort := moves.foldl
          (fun hh m =>
            let ar := allocB hh (readB hh r)
            make_moveH m player ar.2 ar.1) h
        let m := moves.getD (pick moves % moves.length) 0
        let ar := allocB hsort (readB hsort r)
        let h2 := make_moveH m player ar.2 ar.1
        let rh := tree_playoutH pick fuel' (opponent player) ar.2 t h2
        let result := -rh.1.1
        ((result, update_board_score rh.1.2 (readB rh.2 r) result), rh.2)
      else if (legal_moves (opponent player) (readB h r)).isEmpty = false then
        let rh := tree_playoutH pick fuel' (opponent player) r t h
        let result := -rh.1.1
        ((result, update_board_score rh.1.2 (readB rh.2 r) result), rh.2)
      else
        let result := score player (readB h r)
        ((result, update_board_score t (readB h r) result), h)

/-- Python's `max`/`sorted(..., reverse=True)[0]` over `(score-triple, move)`
pairs, comparing tuples lexicographically with `inf` on top. -/
def pyMaxT (l : List (Triple × Int)) : Triple × Int :=
  match l with
  | [] => ((some 0, some 0, some 0), 0)
  | x :: xs =>
      xs.foldl (fun acc y =>
        if (ltP acc.1.1 y.1.1 ||
             (acc.1.1 == y.1.1 && (ltP acc.1.2.1 y.1.2.1 ||
               (acc.1.2.1 == y.1.2.1 && ltP acc.1.2.2 y.1.2.2)))) ||
            (acc.1 == y.1 && decide (acc.2 < y.2)) then y else acc) x

/-- Heap-level `monte_carlo1`: `num = 10` playouts of `random_score` per
candidate move, each applied to a fresh copy; picks the best observed triple.
(The console printing is outside the modelled core.) -/
def monte_carlo1H (player : Cell) (r : Nat) (t : Table) (rng : List Nat) (fuel : Nat)
    (h : Heap) : (Int × Table × List Nat) × Heap :=
  let res := (legal_moves player (readB h r)).foldl
    (fun (acc : List (Triple × Int) × Table × List Nat × Heap) m =>
      let ar := allocB acc.2.2.2 (readB acc.2.2.2 r)
      let h2 := make_moveH m player ar.2 ar.1
      let sh := random_scoreH player ar.2 10 acc.2.1 acc.2.2.1 fuel h2
      (acc.1 ++ [(sh.1.1, m)], sh.1.2.1, sh.1.2.2, sh.2))
    ([], t, rng, h)
  let best := pyMaxT res.1
  ((best.2, res.2.1, res.2.2.1), res.2.2.2)

/-- Heap-level `monte_carlo2`: reset the table, run `num = 10` tree playouts
from the caller's own board object, then re-sort the legal moves (each applied
to a fresh copy; the jittered key is abstracted by `pick2`) and return the
first.  (The console printing is outside the modelled core.) -/
def monte_carlo2H (pick pick2 : List Int → Nat) (fuel : Nat) (player : Cell) (r : Nat)
    (h : Heap) : (Int × Table) × Heap :=
  let th := (List.range 10).foldl
    (fun (acc : Table × Heap) _ =>
      let rh := tree_playoutH pick fuel player r acc.1 acc.2
      (rh.1.2, rh.2))
    (([] : Table), h)
  let moves := legal_moves player (readB th.2 r)
  let hsort := moves.foldl
    (fun hh m =>
      let ar := allocB hh (readB hh r)
      make_moveH m player ar.2 ar.1) th.2
  let m := moves.getD (pick2 moves % moves.length) 0
  ((m, th.1), hsort)

/-- One heap producing another by only allocating fresh objects and writing
fresh objects: every object alive before is untouched. -/
def HeapExt (h h2 : Heap) : Prop :=
  h.length ≤ h2.length ∧ ∀ j, j < h.length → readB h2 j = readB h j

/-! ### Concrete boards and evaluators used by witnesses and counterexamples -/

/-- A terminal board: every playable cell BLACK (neither side has a move). -/
def fullBlack : Board :=
  (List.range 100).map (fun n => if playableB n then Cell.Black else Cell.Outer)

/-- A full board aligned with the sign of every square weight: its absolute
weighted score reaches `MAX_VALUE` exactly. -/
def extremeBoard : Board :=
  (List.range 100).map (fun n =>
    if playableB n then (if 0 < wAt n then Cell.Black else Cell.White) else Cell.Outer)

/-- The constant-zero evaluator (a stand-in for any bounded evaluator). -/
def zeroEval : Cell → Board → Int := fun _ _ => 0

/-- A constant evaluator whose value exceeds `MAX_VALUE`. -/
def bigEval : Cell → Board → Int := fun _ _ => MAX_VALUE + 1

/-- A statistics table holding the entry `(wins, losses, estimate) = (2, 5, 3/10)`
for the `fullBlack` board. -/
def c8Table : Table := [(fullBlack, (some 2, some 5, some (3 / 10)))]

/-- The board after BLACK plays 34 on the initial board. -/
def c6Board : Board := getOk (make_move 34 Cell.Black initial_board) initial_board

/-! ## Basic board lemmas -/

lemma playable_iff {i : Int} :
    playableB i = true ↔ 11 ≤ i ∧ i ≤ 88 ∧ 1 ≤ i % 10 ∧ i % 10 ≤ 8 := by
  simp [playableB, and_assoc]

lemma length_of_boardOk {b : Board} (hb : boardOk b = true) : b.length = 100 := by
  unfold boardOk at hb
  simp only [Bool.and_eq_true, beq_iff_eq] at hb
  exact hb.1

lemma cellAt_natCast (b : Board) (n : Nat) : cellAt b (n : Int) = b.getD n Cell.Outer := by
  unfold cellAt
  simp

lemma cellAt_outer {b : Board} (hb : boardOk b = true) (i : Int) (h : playableB i = false) :
    cellAt b i = Cell.Outer := by
  unfold boardOk at hb
  simp only [Bool.and_eq_true, beq_iff_eq, List.all_eq_true, List.mem_range,
    Bool.or_eq_true] at hb
  obtain ⟨hlen, hall⟩ := hb
  unfold cellAt
  by_cases h0 : i < 0
  · simp [h0]
  · simp only [h0, if_false]
    push_neg at h0
    by_cases h100 : i < 100
    · have hn : i.toNat < 100 := by omega
      have hcast : ((i.toNat : Int)) = i := Int.toNat_of_nonneg h0
      rcases hall i.toNat hn with hp | ho
      · rw [hcast, h] at hp
        exact absurd hp (by simp)
      · exact ho
    · exact List.getD_eq_default _ _ (by omega)

lemma playable_of_cell {b : Board} (hb : boardOk b = true) {i : Int}
    (h : cellAt b i = Cell.Black ∨ cellAt b i = Cell.White) : playableB i = true := by
  by_contra hc
  have ho := cellAt_outer hb i (by simpa using hc)
  rcases h with h | h <;> rw [ho] at h <;> exact absurd h (by simp)

lemma opponent_BW (p : Cell) : opponent p = Cell.Black ∨ opponent p = Cell.White := by
  unfold opponent
  split <;> simp

lemma mem_squares {i : Int} : i ∈ squares ↔ playableB i = true := by
  constructor
  · intro h
    exact (List.mem_filter.mp h).2
  · intro hp
    have hb := playable_iff.mp hp
    apply List.mem_filter.mpr
    refine ⟨?_, hp⟩
    refine List.mem_map.mpr ⟨i.toNat, List.mem_range.mpr (by omega), ?_⟩
    simp only [Int.ofNat_eq_natCast]
    omega

lemma dir_ne_zero {d : Int} (hd : d ∈ DIRECTIONS) : d ≠ 0 := by
  fin_cases hd <;> decide

lemma directions_nodup : DIRECTIONS.Nodup := by decide

/-! ## The find_bracket scan -/

lemma scanWhileOpp_eq (b : Board) (opp : Cell) (d : Int) :
    ∀ (fuel K : Nat) (pos : Int), K < fuel →
      (∀ j : Nat, j < K → cellAt b (pos + j * d) = opp) →
      cellAt b (pos + K * d) ≠ opp →
      scanWhileOpp b opp d fuel pos = pos + K * d := by
  intro fuel
  induction fuel with
  | zero => intro K pos h; omega
  | succ fuel ih =>
      intro K pos hK hrun hstop
      match K with
      | 0 =>
          have h0 : cellAt b pos ≠ opp := by simpa using hstop
          simp [scanWhileOpp, h0]
      | K + 1 =>
          have h0 : cellAt b pos = opp := by simpa using hrun 0 (by omega)
          have hrec : scanWhileOpp b opp d fuel (pos + d) = (pos + d) + K * d := by
            apply ih K (pos + d) (by omega)
            · intro j hj
              have := hrun (j + 1) (by omega)
              have harith : pos + d + (j : Int) * d = pos + ((j : Nat) + 1 : Nat) * d := by
                push_cast
                ring
              rw [harith]
              exact this
            · have harith : pos + d + (K : Int) * d = pos + ((K : Nat) + 1 : Nat) * d := by
                push_cast
                ring
              rw [harith]
              exact hstop
          have harith : pos + d + (K : Int) * d = pos + ((K : Nat) + 1 : Nat) * d := by
            push_cast
            ring
          simp only [scanWhileOpp, h0, if_pos]
          rw [hrec, harith]

lemma border_hit :
    ∀ sq ∈ squares, ∀ d ∈ DIRECTIONS,
      ((List.range 10).any (fun t => decide (1 ≤ t) && !playableB (sq + (t : Int) * d))) = true := by
  decide

lemma exists_first_stop {b : Board} (hb : boardOk b = true) {sq : Int}
    (hsq : playableB sq = true) {d : Int} (hd : d ∈ DIRECTIONS) (p : Cell) :
    ∃ K : Nat, 1 ≤ K ∧ K ≤ 9 ∧
      (∀ j : Nat, 1 ≤ j → j < K → cellAt b (sq + j * d) = opponent p) ∧
      cellAt b (sq + K * d) ≠ opponent p := by
  have hbh := border_hit sq (mem_squares.mpr hsq) d hd
  simp only [List.any_eq_true, List.mem_range, Bool.and_eq_true, decide_eq_true_eq,
    Bool.not_eq_true'] at hbh
  obtain ⟨t, ht10, ht1, htp⟩ := hbh
  have hstop_t : cellAt b (sq + t * d) ≠ opponent p := by
    rw [cellAt_outer hb _ htp]
    rcases opponent_BW p with h | h <;> rw [h] <;> simp
  have hex : ∃ k : Nat, cellAt b (sq + ((k : Int) + 1) * d) ≠ opponent p := by
    refine ⟨t - 1, ?_⟩
    have hc : ((t - 1 : Nat) : Int) + 1 = (t : Int) := by omega
    rw [hc]
    exact hstop_t
  classical
  have hfind_le : Nat.find hex ≤ t - 1 := by
    apply Nat.find_min' hex
    have hc : ((t - 1 : Nat) : Int) + 1 = (t : Int) := by omega
    rw [hc]
    exact hstop_t
  refine ⟨Nat.find hex + 1, by omega, by omega, ?_, ?_⟩
  · intro j hj1 hjlt
    have hlt : j - 1 < Nat.find hex := by omega
    have := Nat.find_min hex hlt
    have hc : ((j - 1 : Nat) : Int) + 1 = (j : Int) := by omega
    rw [hc] at this
    simpa using this
  · have hc : ((Nat.find hex + 1 : Nat) : Int) = ((Nat.find hex : Nat) : Int) + 1 := by
      push_cast
      ring
    rw [hc]
    exact Nat.find_spec hex

lemma fb_char {b : Board} (hb : boardOk b = true) {sq : Int} (hsq : playableB sq = true)
    {d : Int} (hd : d ∈ DIRECTIONS) (p : Cell) :
    ∃ K : Nat, 1 ≤ K ∧ K ≤ 9 ∧
      (∀ j : Nat, 1 ≤ j → j < K → cellAt b (sq + j * d) = opponent p) ∧
      cellAt b (sq + K * d) ≠ opponent p ∧
      find_bracket sq p b d =
        (if cellAt b (sq + d) = p then none
         else if cellAt b (sq + K * d) = Cell.Outer ∨ cellAt b (sq + K * d) = Cell.Empty
           then none else some (sq + K * d)) := by
  obtain ⟨K, hK1, hK9, hrun, hstop⟩ := exists_first_stop hb hsq hd p
  refine ⟨K, hK1, hK9, hrun, hstop, ?_⟩
  have hscan : scanWhileOpp b (opponent p) d 100 (sq + d) = sq + K * d := by
    have := scanWhileOpp_eq b (opponent p) d 100 (K - 1) (sq + d) (by omega)
      (fun j hj => by
        have := hrun (j + 1) (by omega) (by omega)
        have harith : sq + d + (j : Int) * d = sq + ((j : Nat) + 1 : Nat) * d := by
          push_cast
          ring
        rw [harith]
        exact this)
      (by
        have harith : sq + d + ((K - 1 : Nat) : Int) * d = sq + (K : Int) * d := by
          have : ((K - 1 : Nat) : Int) = (K : Int) - 1 := by omega
          rw [this]
          ring
        rw [harith]
        exact hstop)
    rw [this]
    have : ((K - 1 : Nat) : Int) = (K : Int) - 1 := by omega
    rw [this]
    ring
  simp only [find_bracket]
  rw [hscan]

lemma fb_some_cell {b : Board} {sq : Int} {p : Cell} {d br : Int}
    (hfb : find_bracket sq p b d = some br) :
    cellAt b br ≠ Cell.Outer ∧ cellAt b br ≠ Cell.Empty := by
  simp only [find_bracket] at hfb
  by_cases h1 : cellAt b (sq + d) = p
  · simp [h1] at hfb
  · simp only [h1, if_false] at hfb
    by_cases h2 : cellAt b (scanWhileOpp b (opponent p) d 100 (sq + d)) = Cell.Outer ∨
        cellAt b (scanWhileOpp b (opponent p) d 100 (sq + d)) = Cell.Empty
    · simp [h2] at hfb
    · simp only [h2, if_false, Option.some_inj] at hfb
      push_neg at h2
      rw [← hfb]
      exact h2

lemma fb_some_playable {b : Board} (hb : boardOk b = true) {sq : Int} {p : Cell} {d br : Int}
    (hfb : find_bracket sq p b d = some br) : playableB br = true := by
  have hc := fb_some_cell hfb
  by_contra hn
  have := cellAt_outer hb br (by simpa using hn)
  exact hc.1 this

lemma fb_some_K {b : Board} (hb : boardOk b = true) {sq : Int} (hsq : playableB sq = true)
    {d : Int} (hd : d ∈ DIRECTIONS) {p : Cell} {br : Int}
    (hfb : find_bracket sq p b d = some br) :
    ∃ K : Nat, 1 ≤ K ∧ K ≤ 9 ∧ br = sq + K * d ∧
      (∀ j : Nat, 1 ≤ j → j < K → cellAt b (sq + j * d) = opponent p) ∧
      cellAt b (sq + K * d) ≠ opponent p := by
  obtain ⟨K, hK1, hK9, hrun, hstop, heq⟩ := fb_char hb hsq hd p
  rw [heq] at hfb
  by_cases h1 : cellAt b (sq + d) = p
  · simp [h1] at hfb
  · simp only [h1, if_false] at hfb
    by_cases h2 : cellAt b (sq + K * d) = Cell.Outer ∨ cellAt b (sq + K * d) = Cell.Empty
    · simp [h2] at hfb
    · simp only [h2, if_false, Option.some_inj] at hfb
      exact ⟨K, hK1, hK9, hfb.symm, hrun, hstop⟩

/-! ## Ray geometry: distinct directions from one square reach distinct cells -/

lemma step_coords {d : Int} (hd : d ∈ DIRECTIONS) (q : Int) (hq : playableB q = true)
    (hq2 : playableB (q + d) = true) :
    (q + d) / 10 = q / 10 + dirRow d ∧ (q + d) % 10 = q % 10 + dirCol d := by
  have h1 := playable_iff.mp hq
  have h2 := playable_iff.mp hq2
  fin_cases hd <;> simp only [dirRow, dirCol] <;> norm_num <;> omega

lemma ray_coords {d : Int} (hd : d ∈ DIRECTIONS) (sq : Int) (hsq : playableB sq = true) :
    ∀ j : Nat, (∀ t : Nat, 1 ≤ t → t ≤ j → playableB (sq + t * d) = true) →
      (sq + j * d) / 10 = sq / 10 + j * dirRow d ∧
      (sq + j * d) % 10 = sq % 10 + j * dirCol d := by
  intro j
  induction j with
  | zero => intro _; simp
  | succ j ih =>
      intro hrun
      have hq : playableB (sq + j * d) = true := by
        match j with
        | 0 => simpa using hsq
        | j + 1 => exact hrun (j + 1) (by omega) (by omega)
      have hq2 : playableB (sq + (j + 1 : Nat) * d) = true := hrun (j + 1) (by omega) (by omega)
      have hstep := step_coords hd (sq + j * d) hq (by
        have harith : sq + (j : Int) * d + d = sq + ((j + 1 : Nat) : Int) * d := by
          push_cast
          ring
        rw [harith]
        exact hq2)
      have hprev := ih (fun t ht1 htj => hrun t ht1 (by omega))
      have harith : sq + (j : Int) * d + d = sq + ((j + 1 : Nat) : Int) * d := by
        push_cast
        ring
      rw [harith] at hstep
      constructor
      · rw [hstep.1, hprev.1]
        push_cast
        ring
      · rw [hstep.2, hprev.2]
        push_cast
        ring

lemma dir_unique {d d' : Int} (hd : d ∈ DIRECTIONS) (hd' : d' ∈ DIRECTIONS) (j j' : Nat)
    (hj : 1 ≤ j) (hj' : 1 ≤ j')
    (hr : (j : Int) * dirRow d = (j' : Int) * dirRow d')
    (hc : (j : Int) * dirCol d = (j' : Int) * dirCol d') : d = d' := by
  fin_cases hd <;> fin_cases hd' <;> simp only [dirRow, dirCol] at hr hc <;> norm_num at hr hc ⊢ <;> omega

lemma rays_disjoint {sq : Int} (hsq : playableB sq = true) {d d' : Int}
    (hd : d ∈ DIRECTIONS) (hd' : d' ∈ DIRECTIONS) (hne : d ≠ d') (j j' : Nat)
    (hj : 1 ≤ j) (hj' : 1 ≤ j')
    (hrun : ∀ t : Nat, 1 ≤ t → t ≤ j → playableB (sq + t * d) = true)
    (hrun' : ∀ t : Nat, 1 ≤ t → t ≤ j' → playableB (sq + t * d') = true) :
    sq + j * d ≠ sq + j' * d' := by
  intro heq
  have h1 := ray_coords hd sq hsq j hrun
  have h2 := ray_coords hd' sq hsq j' hrun'
  rw [heq] at h1
  apply hne
  apply dir_unique hd hd' j j' hj hj'
  · have e1 := h1.1
    have e2 := h2.1
    linarith
  · have e1 := h1.2
    have e2 := h2.2
    linarith

/-! ## find_bracket only depends on the cells along its ray -/

lemma fb_congr (b₁ b₂ : Board) (sq : Int) (p : Cell) (d : Int) (K : Nat)
    (hK1 : 1 ≤ K) (hK9 : K ≤ 9)
    (hrun : ∀ j : Nat, 1 ≤ j → j < K → cellAt b₂ (sq + j * d) = opponent p)
    (hstop : cellAt b₂ (sq + K * d) ≠ opponent p)
    (hagree : ∀ j : Nat, 1 ≤ j → j ≤ K → cellAt b₁ (sq + j * d) = cellAt b₂ (sq + j * d)) :
    find_bracket sq p b₁ d = find_bracket sq p b₂ d := by
  have hrun1 : ∀ j : Nat, 1 ≤ j → j < K → cellAt b₁ (sq + j * d) = opponent p :=
    fun j hj1 hjK => (hagree j hj1 (by omega)).trans (hrun j hj1 hjK)
  have hstop1 : cellAt b₁ (sq + K * d) ≠ opponent p := by
    rw [hagree K (by omega) (by omega)]
    exact hstop
  have hscan : ∀ b : Board, (∀ j : Nat, 1 ≤ j → j < K → cellAt b (sq + j * d) = opponent p) →
      cellAt b (sq + K * d) ≠ opponent p →
      scanWhileOpp b (opponent p) d 100 (sq + d) = sq + K * d := by
    intro b hr hs
    have := scanWhileOpp_eq b (opponent p) d 100 (K - 1) (sq + d) (by omega)
      (fun j hj => by
        have := hr (j + 1) (by omega) (by omega)
        have harith : sq + d + (j : Int) * d = sq + ((j + 1 : Nat) : Int) * d := by
          push_cast
          ring
        rw [harith]
        exact this)
      (by
        have harith : sq + d + ((K - 1 : Nat) : Int) * d = sq + (K : Int) * d := by
          have hc : ((K - 1 : Nat) : Int) = (K : Int) - 1 := by omega
          rw [hc]
          ring
        rw [harith]
        exact hs)
    rw [this]
    have hc : ((K - 1 : Nat) : Int) = (K : Int) - 1 := by omega
    rw [hc]
    ring
  have h1 : cellAt b₁ (sq + d) = cellAt b₂ (sq + d) := by
    have := hagree 1 (by omega) (by omega)
    simpa using this
  simp only [find_bracket]
  rw [hscan b₁ hrun1 hstop1, hscan b₂ hrun hstop, h1,
    hagree K (by omega) (by omega)]

/-! ## Legality -/

lemma isTruthy_iff {b : Board} (hb : boardOk b = true) {sq : Int} {p : Cell} {d : Int} :
    isTruthy (find_bracket sq p b d) = true ↔ find_bracket sq p b d ≠ none := by
  cases hfb : find_bracket sq p b d with
  | none => simp [isTruthy]
  | some br =>
      have hpl := fb_some_playable hb hfb
      have hz : br ≠ 0 := by
        intro h
        rw [h] at hpl
        exact absurd hpl (by decide)
      simp [isTruthy, hz]

lemma is_legal_iff {b : Board} (hb : boardOk b = true) {m : Int} {p : Cell} :
    is_legal m p b = true ↔
      (cellAt b m = Cell.Empty ∧ ∃ d ∈ DIRECTIONS, find_bracket m p b d ≠ none) := by
  unfold is_legal
  simp only [Bool.and_eq_true, beq_iff_eq, List.any_eq_true]
  constructor
  · rintro ⟨h1, d, hd, ht⟩
    exact ⟨h1, d, hd, (isTruthy_iff hb).mp ht⟩
  · rintro ⟨h1, d, hd, hn⟩
    exact ⟨h1, d, hd, (isTruthy_iff hb).mpr hn⟩

lemma legal_playable {b : Board} (hb : boardOk b = true) {m : Int} {p : Cell}
    (h : is_legal m p b = true) : playableB m = true := by
  have hc := ((is_legal_iff hb).mp h).1
  by_contra hn
  rw [cellAt_outer hb m (by simpa using hn)] at hc
  exact absurd hc (by simp)

lemma squares_pairwise : List.Pairwise (fun a b : Int => a < b) squares := by decide

/-- C4: for every (well-formed) board, playable move, player and direction,
`find_bracket` returns no bracket when the adjacent cell in the direction holds
the player's own piece; otherwise it scans over the opponent's pieces up to the
first non-opponent cell, returns no bracket when that cell is OUTER or EMPTY,
and returns that cell's index otherwise. -/
theorem C4_find_bracket (b : Board) (hb : boardOk b = true) (sq : Int)
    (hsq : playableB sq = true) (d : Int) (hd : d ∈ DIRECTIONS) (p : Cell) :
    (cellAt b (sq + d) = p → find_bracket sq p b d = none) ∧
    ∃ K : Nat, 1 ≤ K ∧
      (∀ j : Nat, 1 ≤ j → j < K → cellAt b (sq + j * d) = opponent p) ∧
      cellAt b (sq + K * d) ≠ opponent p ∧
      (cellAt b (sq + d) ≠ p →
        find_bracket sq p b d =
          (if cellAt b (sq + K * d) = Cell.Outer ∨ cellAt b (sq + K * d) = Cell.Empty
           then none else some (sq + K * d))) := by
  obtain ⟨K, hK1, hK9, hrun, hstop, heq⟩ := fb_char hb hsq hd p
  constructor
  · intro h
    rw [heq, if_pos h]
  · exact ⟨K, hK1, hrun, hstop, fun h => by rw [heq, if_neg h]⟩

/-- Closed instance of C4: the initial board, move 34, direction 10 (south), BLACK. -/
theorem C4_find_bracket_witness :
    (boardOk initial_board = true ∧ playableB 34 = true ∧ (10 : Int) ∈ DIRECTIONS) ∧
    ((cellAt initial_board (34 + 10) = Cell.Black →
        find_bracket 34 Cell.Black initial_board 10 = none) ∧
      ∃ K : Nat, 1 ≤ K ∧
        (∀ j : Nat, 1 ≤ j → j < K →
          cellAt initial_board (34 + j * 10) = opponent Cell.Black) ∧
        cellAt initial_board (34 + K * 10) ≠ opponent Cell.Black ∧
        (cellAt initial_board (34 + 10) ≠ Cell.Black →
          find_bracket 34 Cell.Black initial_board 10 =
            (if cellAt initial_board (34 + K * 10) = Cell.Outer ∨
                cellAt initial_board (34 + K * 10) = Cell.Empty
             then none else some ((34 : Int) + (K : Int) * 10)))) :=
  ⟨⟨by decide, by decide, by decide⟩,
    C4_find_bracket initial_board (by decide) 34 (by decide) 10 (by decide) Cell.Black⟩

/-- C3: for every (well-formed) board and player, `legal_moves` is exactly the
ascending, duplicate-free list of square indices at which `is_legal` holds, and
`is_legal` holds iff the cell is EMPTY and some direction yields a bracket. -/
theorem C3_legal_moves (p : Cell) (b : Board) (hb : boardOk b = true) :
    (legal_moves p b).Nodup ∧
    List.Pairwise (fun a c : Int => a < c) (legal_moves p b) ∧
    (∀ sq : Int, sq ∈ legal_moves p b ↔ is_legal sq p b = true) ∧
    (∀ m : Int, is_legal m p b = true ↔
      (cellAt b m = Cell.Empty ∧ ∃ d ∈ DIRECTIONS, find_bracket m p b d ≠ none)) := by
  have hpw : List.Pairwise (fun a c : Int => a < c) (legal_moves p b) :=
    List.Pairwise.filter _ squares_pairwise
  refine ⟨hpw.imp (fun h => ne_of_lt h), hpw, ?_, fun m => is_legal_iff hb⟩
  intro sq
  constructor
  · intro h
    exact (List.mem_filter.mp h).2
  · intro h
    exact List.mem_filter.mpr ⟨mem_squares.mpr (legal_playable hb h), h⟩

/-- Closed instance of C3: BLACK on the initial board. -/
theorem C3_legal_moves_witness :
    boardOk initial_board = true ∧
    ((legal_moves Cell.Black initial_board).Nodup ∧
      List.Pairwise (fun a c : Int => a < c) (legal_moves Cell.Black initial_board) ∧
      (∀ sq : Int, sq ∈ legal_moves Cell.Black initial_board ↔
        is_legal sq Cell.Black initial_board = true) ∧
      (∀ m : Int, is_legal m Cell.Black initial_board = true ↔
        (cellAt initial_board m = Cell.Empty ∧
          ∃ d ∈ DIRECTIONS, find_bracket m Cell.Black initial_board d ≠ none))) :=
  ⟨by decide, C3_legal_moves Cell.Black initial_board (by decide)⟩

/-! ## Weighted score bound and final value -/

lemma weighted_score_eq (p : Cell) (b : Board) :
    weighted_score p b =
      (squares.map (fun sq =>
        if cellAt b sq = p then wAt sq
        else if cellAt b sq = opponent p then -(wAt sq) else 0)).sum := by
  unfold weighted_score
  have h : ∀ (l : List Int) (a : Int),
      l.foldl (fun total sq =>
        if cellAt b sq = p then total + wAt sq
        else if cellAt b sq = opponent p then total - wAt sq else total) a =
      a + (l.map (fun sq =>
        if cellAt b sq = p then wAt sq
        else if cellAt b sq = opponent p then -(wAt sq) else 0)).sum := by
    intro l
    induction l with
    | nil => intro a; simp
    | cons x xs ih =>
        intro a
        simp only [List.foldl_cons, List.map_cons, List.sum_cons]
        by_cases h1 : cellAt b x = p
        · rw [if_pos h1, if_pos h1, ih]
          ring
        · by_cases h2 : cellAt b x = opponent p
          · rw [if_neg h1, if_neg h1, if_pos h2, if_pos h2, ih]
            ring
          · rw [if_neg h1, if_neg h1, if_neg h2, if_neg h2, ih]
            ring
  rw [h]
  ring

lemma abs_sum_le_sum_abs_list : ∀ l : List Int, |l.sum| ≤ (l.map (fun x => |x|)).sum := by
  intro l
  induction l with
  | nil => simp
  | cons x xs ih =>
      simp only [List.sum_cons, List.map_cons]
      calc |x + xs.sum| ≤ |x| + |xs.sum| := abs_add _ _
        _ ≤ |x| + (xs.map (fun x => |x|)).sum := by linarith

set_option maxRecDepth 4000 in
lemma sum_abs_wAt_squares : (squares.map (fun sq => |wAt sq|)).sum = MAX_VALUE := by decide

lemma weighted_score_le (p : Cell) (b : Board) : |weighted_score p b| ≤ MAX_VALUE := by
  rw [weighted_score_eq]
  calc |(squares.map (fun sq =>
        if cellAt b sq = p then wAt sq
        else if cellAt b sq = opponent p then -(wAt sq) else 0)).sum|
      ≤ ((squares.map (fun sq =>
          if cellAt b sq = p then wAt sq
          else if cellAt b sq = opponent p then -(wAt sq) else 0)).map (fun x => |x|)).sum :=
        abs_sum_le_sum_abs_list _
    _ ≤ (squares.map (fun sq => |wAt sq|)).sum := by
        rw [List.map_map]
        apply List.sum_le_sum
        intro sq _
        simp only [Function.comp]
        by_cases h1 : cellAt b sq = p
        · rw [if_pos h1]
        · rw [if_neg h1]
          by_cases h2 : cellAt b sq = opponent p
          · rw [if_pos h2, abs_neg]
          · rw [if_neg h2]
            simp [abs_nonneg]
    _ = MAX_VALUE := sum_abs_wAt_squares

/-- C7 (amended): `final_value` returns MAX_VALUE when the score is positive,
MIN_VALUE when negative and 0 when tied; MIN_VALUE is -MAX_VALUE; MAX_VALUE is
the sum of the absolute values of all 100 square weights and bounds the
absolute weighted score of every board (the bound is attained by full boards,
so it is not strict). -/
theorem C7_final_value (p : Cell) (b : Board) :
    (0 < score p b → final_value p b = MAX_VALUE) ∧
    (score p b < 0 → final_value p b = MIN_VALUE) ∧
    (score p b = 0 → final_value p b = 0) ∧
    MIN_VALUE = -MAX_VALUE ∧
    MAX_VALUE = (SQUARE_WEIGHTS.map (fun w => |w|)).sum ∧
    |weighted_score p b| ≤ MAX_VALUE := by
  refine ⟨?_, ?_, ?_, rfl, rfl, weighted_score_le p b⟩
  · intro h
    simp only [final_value]
    rw [if_neg (by omega), if_pos h]
  · intro h
    simp only [final_value]
    rw [if_pos h]
  · intro h
    simp only [final_value]
    rw [if_neg (by omega), if_neg (by omega)]
    exact h

set_option maxRecDepth 8000 in
/-- The claim's strict bound is refuted: a full board aligned with the weight
signs has absolute weighted score exactly MAX_VALUE. -/
theorem C7_counterexample :
    ¬ (|weighted_score Cell.Black extremeBoard| < MAX_VALUE) := by decide

/-- Closed instance of C7 on a board with positive score. -/
theorem C7_final_value_witness :
    0 < score Cell.Black fullBlack ∧ final_value Cell.Black fullBlack = MAX_VALUE :=
  ⟨by decide, (C7_final_value Cell.Black fullBlack).1 (by decide)⟩

/-! ## Python max over (value, move) pairs -/

lemma pyMax_cons (x y : Int × Int) (ys : List (Int × Int)) :
    pyMax (x :: y :: ys) =
      pyMax ((if x.1 < y.1 ∨ (x.1 = y.1 ∧ x.2 < y.2) then y else x) :: ys) := rfl

lemma pyMax_spec (xs : List (Int × Int)) : ∀ x : Int × Int,
    pyMax (x :: xs) ∈ x :: xs ∧
    ∀ q ∈ x :: xs, q.1 ≤ (pyMax (x :: xs)).1 ∧
      (q.1 = (pyMax (x :: xs)).1 → q.2 ≤ (pyMax (x :: xs)).2) := by
  induction xs with
  | nil =>
      intro x
      refine ⟨by simp [pyMax], ?_⟩
      intro q hq
      simp only [List.mem_singleton] at hq
      subst hq
      simp [pyMax]
  | cons y ys ih =>
      intro x
      rw [pyMax_cons]
      by_cases hc : x.1 < y.1 ∨ (x.1 = y.1 ∧ x.2 < y.2)
      · rw [if_pos hc]
        obtain ⟨hmem, hbound⟩ := ih y
        have hhead := hbound y (List.mem_cons_self _ _)
        refine ⟨List.mem_cons_of_mem _ hmem, ?_⟩
        intro q hq
        rcases List.mem_cons.mp hq with hqx | hq2
        · subst hqx
          rcases hc with hlt | ⟨he, h2⟩
          · exact ⟨by omega, fun he2 => by omega⟩
          · refine ⟨by omega, fun he2 => ?_⟩
            have := hhead.2 (by omega)
            omega
        · exact hbound q hq2
      · rw [if_neg hc]
        obtain ⟨hmem, hbound⟩ := ih x
        have hhead := hbound x (List.mem_cons_self _ _)
        push_neg at hc
        obtain ⟨hc1, hc2⟩ := hc
        constructor
        · rcases List.mem_cons.mp hmem with h1 | h1
          · exact List.mem_cons.mpr (Or.inl h1)
          · exact List.mem_cons.mpr (Or.inr (List.mem_cons_of_mem _ h1))
        · intro q hq
          rcases List.mem_cons.mp hq with hqx | hq2
          · subst hqx
            exact hhead
          · rcases List.mem_cons.mp hq2 with hqy | hqys
            · subst hqy
              refine ⟨by omega, fun he => ?_⟩
              have hx2 := hhead.2 (by omega)
              have hy2 := hc2 (by omega)
              omega
            · exact hbound q (List.mem_cons_of_mem _ hqys)

lemma minimax_succ (p : Cell) (b : Board) (d : Nat) (evaluate : Cell → Board → Int)
    (h : legal_moves p b ≠ []) :
    minimax p b (d + 1) evaluate =
      (let pr := pyMax ((legal_moves p b).map (fun m =>
         (-(minimax (opponent p) (getOk (make_move m p b) b) d evaluate).1, m)))
       (pr.1, some pr.2)) := by
  simp only [minimax]
  rw [if_neg (by simpa using h)]

/-- C5 (amended): when the player has a legal move and depth > 0, `minimax`
returns the maximum over (negated recursive value, move) pairs where the Python
tuple `max` breaks ties on the value by the LARGEST move index (not the
first-encountered/smallest): the returned move attains the maximal value, and
every tying move is ≤ the returned move. -/
theorem C5_minimax_tiebreak (p : Cell) (b : Board) (d : Nat)
    (evaluate : Cell → Board → Int) (h : legal_moves p b ≠ []) :
    (∃ m, (minimax p b (d + 1) evaluate).2 = some m ∧ m ∈ legal_moves p b ∧
      -(minimax (opponent p) (getOk (make_move m p b) b) d evaluate).1 =
        (minimax p b (d + 1) evaluate).1) ∧
    (∀ m ∈ legal_moves p b,
      -(minimax (opponent p) (getOk (make_move m p b) b) d evaluate).1 ≤
        (minimax p b (d + 1) evaluate).1) ∧
    (∀ m ∈ legal_moves p b,
      -(minimax (opponent p) (getOk (make_move m p b) b) d evaluate).1 =
        (minimax p b (d + 1) evaluate).1 →
      m ≤ ((minimax p b (d + 1) evaluate).2.getD 0)) := by
  rw [minimax_succ p b d evaluate h]
  set w := fun m : Int =>
    -(minimax (opponent p) (getOk (make_move m p b) b) d evaluate).1 with hw
  match hmv : legal_moves p b with
  | [] => exact absurd hmv h
  | m0 :: rest =>
      simp only [List.map_cons]
      obtain ⟨hmem, hbound⟩ := pyMax_spec (rest.map (fun m => (w m, m))) (w m0, m0)
      set P := pyMax ((w m0, m0) :: rest.map (fun m => (w m, m))) with hP
      have hPm : ∃ m ∈ m0 :: rest, P = (w m, m) := by
        rcases List.mem_cons.mp hmem with h1 | h1
        · exact ⟨m0, List.mem_cons_self _ _, h1⟩
        · obtain ⟨m, hm, he⟩ := List.mem_map.mp h1
          exact ⟨m, List.mem_cons_of_mem _ hm, he.symm⟩
      obtain ⟨mP, hmP, hPe⟩ := hPm
      have hq : ∀ m ∈ m0 :: rest, (w m, m) ∈ (w m0, m0) :: rest.map (fun m => (w m, m)) := by
        intro m hm
        rcases List.mem_cons.mp hm with h1 | h1
        · rw [h1]
          exact List.mem_cons_self _ _
        · exact List.mem_cons_of_mem _ (List.mem_map.mpr ⟨m, h1, rfl⟩)
      refine ⟨⟨mP, ?_, hmP, ?_⟩, ?_, ?_⟩
      · simp only [hPe]
      · simp only [hPe]
      · intro m hm
        exact (hbound _ (hq m hm)).1
      · intro m hm he
        have := (hbound _ (hq m hm)).2 he
        simpa using this

set_option maxRecDepth 8000 in
/-- The claim as stated is refuted: on the initial board at depth 1 with the
constant-zero evaluator all four legal moves tie at value 0, the smallest legal
move is 34, yet `minimax` returns move 65 (Python's tuple `max` prefers the
largest move index among ties). -/
theorem C5_counterexample :
    (minimax Cell.Black initial_board 1 zeroEval).2 = some 65 ∧
    (34 : Int) ∈ legal_moves Cell.Black initial_board ∧
    -(minimax Cell.White (getOk (make_move 34 Cell.Black initial_board) initial_board) 0
        zeroEval).1 = (minimax Cell.Black initial_board 1 zeroEval).1 ∧
    ¬((65 : Int) ≤ 34) := by
  refine ⟨by decide, by decide, by decide, by decide⟩

/-- Closed instance of C5 (amended): BLACK on the initial board at depth 1. -/
theorem C5_minimax_tiebreak_witness :
    legal_moves Cell.Black initial_board ≠ [] ∧
    ((∃ m, (minimax Cell.Black initial_board 1 zeroEval).2 = some m ∧
        m ∈ legal_moves Cell.Black initial_board ∧
        -(minimax Cell.White (getOk (make_move m Cell.Black initial_board) initial_board) 0
            zeroEval).1 = (minimax Cell.Black initial_board 1 zeroEval).1) ∧
      (∀ m ∈ legal_moves Cell.Black initial_board,
        -(minimax Cell.White (getOk (make_move m Cell.Black initial_board) initial_board) 0
            zeroEval).1 ≤ (minimax Cell.Black initial_board 1 zeroEval).1) ∧
      (∀ m ∈ legal_moves Cell.Black initial_board,
        -(minimax Cell.White (getOk (make_move m Cell.Black initial_board) initial_board) 0
            zeroEval).1 = (minimax Cell.Black initial_board 1 zeroEval).1 →
        m ≤ ((minimax Cell.Black initial_board 1 zeroEval).2.getD 0))) := by
  refine ⟨by decide, ?_⟩
  have h := C5_minimax_tiebreak Cell.Black initial_board 0 zeroEval (by decide)
  have hop : opponent Cell.Black = Cell.White := by decide
  rw [hop] at h
  exact h

/-! ## Sorting and the alpha-beta loop -/

lemma insertDesc_perm (key : Int → Int) (x : Int) :
    ∀ l : List Int, (insertDesc key x l).Perm (x :: l) := by
  intro l
  induction l with
  | nil => simp [insertDesc]
  | cons y ys ih =>
      simp only [insertDesc]
      by_cases hc : key x < key y
      · rw [if_pos hc]
        exact (ih.cons y).trans (List.Perm.swap x y ys)
      · rw [if_neg hc]

lemma sortDesc_perm (key : Int → Int) :
    ∀ l : List Int, (sortDesc key l).Perm l := by
  intro l
  induction l with
  | nil => simp [sortDesc]
  | cons x xs ih =>
      simp only [sortDesc]
      exact (insertDesc_perm key x (sortDesc key xs)).trans (List.Perm.cons x ih)

lemma sortDesc_ne_nil {key : Int → Int} {l : List Int} (h : l ≠ []) :
    sortDesc key l ≠ [] := by
  intro he
  have hp := sortDesc_perm key l
  rw [he] at hp
  exact h hp.nil_eq.symm

lemma mem_sortDesc {key : Int → Int} {l : List Int} {m : Int} :
    m ∈ sortDesc key l ↔ m ∈ l :=
  (sortDesc_perm key l).mem_iff

lemma abLoop_stuck (beta : Int) (f : Int → Int → Int) (ms : List Int) (alpha best : Int)
    (h : beta ≤ alpha) : abLoop beta f ms alpha best = (alpha, best) := by
  cases ms with
  | nil => rfl
  | cons m ms => simp [abLoop, h]

lemma abLoop_fst_ge (beta : Int) (f : Int → Int → Int) :
    ∀ (ms : List Int) (alpha best : Int), alpha ≤ (abLoop beta f ms alpha best).1 := by
  intro ms
  induction ms with
  | nil => intro alpha best; simp [abLoop]
  | cons m ms ih =>
      intro alpha best
      simp only [abLoop]
      by_cases h1 : beta ≤ alpha
      · rw [if_pos h1]
      · rw [if_neg h1]
        by_cases h2 : alpha < f m alpha
        · rw [if_pos h2]
          have := ih (f m alpha) m
          omega
        · rw [if_neg h2]
          exact ih alpha best

lemma abLoop_snd_mem (beta : Int) (f : Int → Int → Int) :
    ∀ (ms : List Int) (alpha best : Int),
      (abLoop beta f ms alpha best).2 = best ∨ (abLoop beta f ms alpha best).2 ∈ ms := by
  intro ms
  induction ms with
  | nil => intro alpha best; simp [abLoop]
  | cons m ms ih =>
      intro alpha best
      simp only [abLoop]
      by_cases h1 : beta ≤ alpha
      · rw [if_pos h1]
        exact Or.inl rfl
      · rw [if_neg h1]
        by_cases h2 : alpha < f m alpha
        · rw [if_pos h2]
          rcases ih (f m alpha) m with h | h
          · right
            rw [h]
            exact List.mem_cons_self _ _
          · exact Or.inr (List.mem_cons_of_mem _ h)
        · rw [if_neg h2]
          rcases ih alpha best with h | h
          · exact Or.inl h
          · exact Or.inr (List.mem_cons_of_mem _ h)

lemma abLoop_no_improve (beta : Int) (f : Int → Int → Int) :
    ∀ (ms : List Int) (alpha best : Int), (∀ m ∈ ms, f m alpha ≤ alpha) →
      abLoop beta f ms alpha best = (alpha, best) := by
  intro ms
  induction ms with
  | nil => intro alpha best _; rfl
  | cons m ms ih =>
      intro alpha best h
      simp only [abLoop]
      by_cases h1 : beta ≤ alpha
      · rw [if_pos h1]
      · rw [if_neg h1]
        rw [if_neg (by
          have := h m (List.mem_cons_self _ _)
          omega)]
        exact ih alpha best (fun m hm => h m (List.mem_cons_of_mem _ hm))

lemma alphabeta_succ (p : Cell) (b : Board) (alpha beta : Int) (d : Nat)
    (evaluate : Cell → Board → Int) (h : legal_moves p b ≠ []) :
    alphabeta p b alpha beta (d + 1) evaluate =
      ((abLoop beta
          (fun m a =>
            -(alphabeta (opponent p) (getOk (make_move m p b) b) (-beta) (-a) d evaluate).1)
          (sortDesc wAt (legal_moves p b)) alpha
          ((sortDesc wAt (legal_moves p b)).headD 0)).1,
        some (abLoop beta
          (fun m a =>
            -(alphabeta (opponent p) (getOk (make_move m p b) b) (-beta) (-a) d evaluate).1)
          (sortDesc wAt (legal_moves p b)) alpha
          ((sortDesc wAt (legal_moves p b)).headD 0)).2) := by
  simp only [alphabeta]
  rw [if_neg (by simpa using sortDesc_ne_nil h)]

/-- C10: for every alpha-beta call at positive depth on a position with at
least one legal move, the returned value is at least the `alpha` argument and
the returned move is a legal move; moreover, when no examined move improves on
`alpha`, the call returns `alpha` unchanged together with the first move in
descending-static-weight order. -/
theorem C10_alphabeta_bounds (p : Cell) (b : Board) (alpha beta : Int) (d : Nat)
    (evaluate : Cell → Board → Int) (h : legal_moves p b ≠ []) :
    alpha ≤ (alphabeta p b alpha beta (d + 1) evaluate).1 ∧
    (∃ m, (alphabeta p b alpha beta (d + 1) evaluate).2 = some m ∧ m ∈ legal_moves p b) ∧
    ((∀ m ∈ sortDesc wAt (legal_moves p b),
        -(alphabeta (opponent p) (getOk (make_move m p b) b) (-beta) (-alpha) d evaluate).1 ≤
          alpha) →
      alphabeta p b alpha beta (d + 1) evaluate =
        (alpha, some ((sortDesc wAt (legal_moves p b)).headD 0))) := by
  rw [alphabeta_succ p b alpha beta d evaluate h]
  set f := fun m a =>
    -(alphabeta (opponent p) (getOk (make_move m p b) b) (-beta) (-a) d evaluate).1 with hf
  set ms := sortDesc wAt (legal_moves p b) with hms
  have hne : ms ≠ [] := sortDesc_ne_nil h
  refine ⟨abLoop_fst_ge beta f ms alpha (ms.headD 0), ?_, ?_⟩
  · refine ⟨(abLoop beta f ms alpha (ms.headD 0)).2, rfl, ?_⟩
    have hhead : ms.headD 0 ∈ ms := by
      cases hc : ms with
      | nil => exact absurd hc hne
      | cons a l => simp
    rcases abLoop_snd_mem beta f ms alpha (ms.headD 0) with hb | hb
    · exact mem_sortDesc.mp (hb ▸ hhead)
    · exact mem_sortDesc.mp hb
  · intro hno
    rw [abLoop_no_improve beta f ms alpha (ms.headD 0) hno]

/-- Closed instance of C10: BLACK on the initial board, window (0, 1), depth 1,
zero evaluator (no move improves on alpha = 0). -/
theorem C10_alphabeta_bounds_witness :
    legal_moves Cell.Black initial_board ≠ [] ∧
    ((0 : Int) ≤ (alphabeta Cell.Black initial_board 0 1 1 zeroEval).1 ∧
      (∃ m, (alphabeta Cell.Black initial_board 0 1 1 zeroEval).2 = some m ∧
        m ∈ legal_moves Cell.Black initial_board) ∧
      ((∀ m ∈ sortDesc wAt (legal_moves Cell.Black initial_board),
          -(alphabeta (opponent Cell.Black)
              (getOk (make_move m Cell.Black initial_board) initial_board) (-1) (-0) 0
              zeroEval).1 ≤ 0) →
        alphabeta Cell.Black initial_board 0 1 1 zeroEval =
          (0, some ((sortDesc wAt (legal_moves Cell.Black initial_board)).headD 0)))) :=
  ⟨by decide, C10_alphabeta_bounds Cell.Black initial_board 0 1 0 zeroEval (by decide)⟩

/-! ## Folded maxima -/

lemma le_foldl_max : ∀ (l : List Int) (a : Int), a ≤ l.foldl max a := by
  intro l
  induction l with
  | nil => intro a; simp
  | cons x xs ih =>
      intro a
      simp only [List.foldl_cons]
      have := ih (max a x)
      omega

lemma foldl_max_shift : ∀ (l : List Int) (a x : Int),
    l.foldl max (max a x) = max a (l.foldl max x) := by
  intro l
  induction l with
  | nil => intro a x; simp
  | cons y ys ih =>
      intro a x
      simp only [List.foldl_cons]
      rw [max_assoc, ih]

lemma foldl_max_perm {l₁ l₂ : List Int} (h : l₁.Perm l₂) :
    ∀ a : Int, l₁.foldl max a = l₂.foldl max a := by
  induction h with
  | nil => intro a; rfl
  | cons x _ ih =>
      intro a
      simp only [List.foldl_cons]
      exact ih (max a x)
  | swap x y l =>
      intro a
      simp only [List.foldl_cons]
      congr 1
      omega
  | trans _ _ ih1 ih2 =>
      intro a
      rw [ih1 a, ih2 a]

lemma foldl_max_le : ∀ (l : List Int) (a c : Int), a ≤ c → (∀ x ∈ l, x ≤ c) →
    l.foldl max a ≤ c := by
  intro l
  induction l with
  | nil => intro a c ha _; simpa using ha
  | cons x xs ih =>
      intro a c ha hl
      simp only [List.foldl_cons]
      apply ih
      · have := hl x (List.mem_cons_self _ _)
        omega
      · exact fun y hy => hl y (List.mem_cons_of_mem _ hy)

lemma pyMax_fst_aux : ∀ (xs : List (Int × Int)) (x : Int × Int),
    (xs.foldl (fun acc y => if acc.1 < y.1 ∨ (acc.1 = y.1 ∧ acc.2 < y.2) then y else acc) x).1 =
      (xs.map Prod.fst).foldl max x.1 := by
  intro xs
  induction xs with
  | nil => intro x; rfl
  | cons y ys ih =>
      intro x
      simp only [List.foldl_cons, List.map_cons]
      rw [ih]
      congr 1
      by_cases hc : x.1 < y.1 ∨ (x.1 = y.1 ∧ x.2 < y.2)
      · rw [if_pos hc]
        rcases hc with h | ⟨h, _⟩ <;> omega
      · rw [if_neg hc]
        push_neg at hc
        have := hc.1
        omega

lemma pyMax_fst (x : Int × Int) (xs : List (Int × Int)) :
    (pyMax (x :: xs)).1 = (xs.map Prod.fst).foldl max x.1 :=
  pyMax_fst_aux xs x

/-! ## Branch lemmas for minimax and alphabeta -/

lemma minimax_zero (p : Cell) (b : Board) (evaluate : Cell → Board → Int) :
    minimax p b 0 evaluate = (evaluate p b, none) := rfl

lemma minimax_term (p : Cell) (b : Board) (d : Nat) (evaluate : Cell → Board → Int)
    (h : legal_moves p b = []) (h2 : any_legal_move (opponent p) b = false) :
    minimax p b (d + 1) evaluate = (final_value p b, none) := by
  simp only [minimax]
  rw [h]
  simp [h2]

lemma minimax_pass (p : Cell) (b : Board) (d : Nat) (evaluate : Cell → Board → Int)
    (h : legal_moves p b = []) (h2 : any_legal_move (opponent p) b = true) :
    minimax p b (d + 1) evaluate = (-(minimax (opponent p) b d evaluate).1, none) := by
  simp only [minimax]
  rw [h]
  simp [h2]

lemma alphabeta_zero (p : Cell) (b : Board) (alpha beta : Int)
    (evaluate : Cell → Board → Int) :
    alphabeta p b alpha beta 0 evaluate = (evaluate p b, none) := rfl

lemma alphabeta_term (p : Cell) (b : Board) (alpha beta : Int) (d : Nat)
    (evaluate : Cell → Board → Int)
    (h : legal_moves p b = []) (h2 : any_legal_move (opponent p) b = false) :
    alphabeta p b alpha beta (d + 1) evaluate = (final_value p b, none) := by
  simp only [alphabeta]
  rw [h]
  simp [h2, sortDesc]

lemma alphabeta_pass (p : Cell) (b : Board) (alpha beta : Int) (d : Nat)
    (evaluate : Cell → Board → Int)
    (h : legal_moves p b = []) (h2 : any_legal_move (opponent p) b = true) :
    alphabeta p b alpha beta (d + 1) evaluate =
      (-(alphabeta (opponent p) b (-beta) (-alpha) d evaluate).1, none) := by
  simp only [alphabeta]
  rw [h]
  simp [h2, sortDesc]

lemma minimax_val_foldl (p : Cell) (b : Board) (d : Nat) (evaluate : Cell → Board → Int)
    (m0 : Int) (rest : List Int) (hmv : legal_moves p b = m0 :: rest) :
    (minimax p b (d + 1) evaluate).1 =
      (rest.map (fun m =>
        -(minimax (opponent p) (getOk (make_move m p b) b) d evaluate).1)).foldl max
        (-(minimax (opponent p) (getOk (make_move m0 p b) b) d evaluate).1) := by
  rw [minimax_succ p b d evaluate (by rw [hmv]; simp)]
  simp only [hmv, List.map_cons]
  rw [pyMax_fst]
  rw [List.map_map]
  rfl

/-! ## Value bounds -/

set_option maxRecDepth 4000 in
lemma max_value_pos : (0 : Int) < MAX_VALUE := by decide

lemma final_value_bounds (p : Cell) (b : Board) :
    MIN_VALUE ≤ final_value p b ∧ final_value p b ≤ MAX_VALUE := by
  have h0 := max_value_pos
  have hm : MIN_VALUE = -MAX_VALUE := rfl
  unfold final_value
  by_cases h1 : score p b < 0
  · rw [if_pos h1]
    omega
  · rw [if_neg h1]
    by_cases h2 : 0 < score p b
    · rw [if_pos h2]
      omega
    · rw [if_neg h2]
      omega

lemma minimax_bounds (evaluate : Cell → Board → Int)
    (hev : ∀ q c, MIN_VALUE ≤ evaluate q c ∧ evaluate q c ≤ MAX_VALUE) :
    ∀ (d : Nat) (p : Cell) (b : Board),
      MIN_VALUE ≤ (minimax p b d evaluate).1 ∧ (minimax p b d evaluate).1 ≤ MAX_VALUE := by
  intro d
  induction d with
  | zero => intro p b; exact hev p b
  | succ d ih =>
      intro p b
      have hm : MIN_VALUE = -MAX_VALUE := rfl
      match hmv : legal_moves p b with
      | [] =>
          cases h2 : any_legal_move (opponent p) b with
          | false => rw [minimax_term p b d evaluate hmv h2]; exact final_value_bounds p b
          | true =>
              rw [minimax_pass p b d evaluate hmv h2]
              have := ih (opponent p) b
              simp only
              omega
      | m0 :: rest =>
          rw [minimax_val_foldl p b d evaluate m0 rest hmv]
          constructor
          · have h1 := le_foldl_max
              (rest.map (fun m =>
                -(minimax (opponent p) (getOk (make_move m p b) b) d evaluate).1))
              (-(minimax (opponent p) (getOk (make_move m0 p b) b) d evaluate).1)
            have h2 := ih (opponent p) (getOk (make_move m0 p b) b)
            omega
          · apply foldl_max_le
            · have := ih (opponent p) (getOk (make_move m0 p b) b)
              omega
            · intro x hx
              obtain ⟨m, _, he⟩ := List.mem_map.mp hx
              have := ih (opponent p) (getOk (make_move m p b) b)
              omega

lemma abLoop_le (beta c : Int) (f : Int → Int → Int)
    (hf : ∀ m a, f m a ≤ max a (max beta c)) :
    ∀ (ms : List Int) (alpha best : Int),
      (abLoop beta f ms alpha best).1 ≤ max alpha (max beta c) := by
  intro ms
  induction ms with
  | nil => intro alpha best; simp [abLoop]
  | cons m ms ih =>
      intro alpha best
      simp only [abLoop]
      by_cases h1 : beta ≤ alpha
      · rw [if_pos h1]
        simp
      · rw [if_neg h1]
        by_cases h2 : alpha < f m alpha
        · rw [if_pos h2]
          have h3 := ih (f m alpha) m
          have h4 := hf m alpha
          omega
        · rw [if_neg h2]
          exact ih alpha best

lemma alphabeta_bounds (evaluate : Cell → Board → Int)
    (hev : ∀ q c, MIN_VALUE ≤ evaluate q c ∧ evaluate q c ≤ MAX_VALUE) :
    ∀ (d : Nat) (p : Cell) (b : Board) (alpha beta : Int),
      min alpha (min beta MIN_VALUE) ≤ (alphabeta p b alpha beta d evaluate).1 ∧
      (alphabeta p b alpha beta d evaluate).1 ≤ max alpha (max beta MAX_VALUE) := by
  intro d
  induction d with
  | zero =>
      intro p b alpha beta
      have := hev p b
      rw [alphabeta_zero]
      simp only
      omega
  | succ d ih =>
      intro p b alpha beta
      have hm : MIN_VALUE = -MAX_VALUE := rfl
      match hmv : legal_moves p b with
      | [] =>
          cases h2 : any_legal_move (opponent p) b with
          | false =>
              rw [alphabeta_term p b alpha beta d evaluate hmv h2]
              have := final_value_bounds p b
              simp only
              omega
          | true =>
              rw [alphabeta_pass p b alpha beta d evaluate hmv h2]
              have := ih (opponent p) b (-beta) (-alpha)
              simp only
              omega
      | m0 :: rest =>
          have hne : legal_moves p b ≠ [] := by rw [hmv]; simp
          rw [alphabeta_succ p b alpha beta d evaluate hne]
          simp only
          constructor
          · have := abLoop_fst_ge beta
              (fun m a =>
                -(alphabeta (opponent p) (getOk (make_move m p b) b) (-beta) (-a) d
                    evaluate).1)
              (sortDesc wAt (legal_moves p b)) alpha
              ((sortDesc wAt (legal_moves p b)).headD 0)
            omega
          · apply abLoop_le
            intro m a
            have := ih (opponent p) (getOk (make_move m p b) b) (-beta) (-a)
            omega

lemma abLoop_correct (beta : Int) (f : Int → Int → Int) (w : Int → Int)
    (hf : ∀ m a, a < beta →
      (w m ≤ a → f m a ≤ a) ∧ (beta ≤ w m → beta ≤ f m a) ∧
      (a < w m → w m < beta → f m a = w m)) :
    ∀ (ms : List Int) (alpha best : Int), alpha < beta →
      ((ms.map w).foldl max alpha < beta →
        (abLoop beta f ms alpha best).1 = (ms.map w).foldl max alpha) ∧
      (beta ≤ (ms.map w).foldl max alpha → beta ≤ (abLoop beta f ms alpha best).1) := by
  intro ms
  induction ms with
  | nil =>
      intro alpha best halpha
      simp only [List.map_nil, List.foldl_nil, abLoop]
      exact ⟨fun _ => by trivial, fun h => by omega⟩
  | cons m ms ih =>
      intro alpha best halpha
      obtain ⟨hfa, hfb, hfc⟩ := hf m alpha halpha
      simp only [List.map_cons, List.foldl_cons, abLoop]
      rw [if_neg (by omega)]
      by_cases h1 : w m ≤ alpha
      · have hval : f m alpha ≤ alpha := hfa h1
        rw [if_neg (by omega)]
        have heq : max alpha (w m) = alpha := by omega
        rw [heq]
        exact ih alpha best halpha
      · by_cases h2 : w m < beta
        · have hval : f m alpha = w m := hfc (by omega) h2
          rw [if_pos (by omega)]
          have heq : max alpha (w m) = w m := by omega
          rw [heq, hval]
          exact ih (w m) m h2
        · have hval : beta ≤ f m alpha := hfb (by omega)
          rw [if_pos (by omega)]
          rw [abLoop_stuck beta f ms (f m alpha) m (by omega)]
          have hge := le_foldl_max (ms.map w) (max alpha (w m))
          exact ⟨fun hlt => by omega, fun _ => by simpa using hval⟩

lemma ab_minimax (evaluate : Cell → Board → Int) :
    ∀ (d : Nat) (p : Cell) (b : Board) (alpha beta : Int), alpha < beta →
      ((minimax p b d evaluate).1 ≤ alpha → (alphabeta p b alpha beta d evaluate).1 ≤ alpha) ∧
      (beta ≤ (minimax p b d evaluate).1 → beta ≤ (alphabeta p b alpha beta d evaluate).1) ∧
      (alpha < (minimax p b d evaluate).1 → (minimax p b d evaluate).1 < beta →
        (alphabeta p b alpha beta d evaluate).1 = (minimax p b d evaluate).1) := by
  intro d
  induction d with
  | zero =>
      intro p b alpha beta halpha
      rw [minimax_zero, alphabeta_zero]
      simp only
      exact ⟨fun h => h, fun h => h, fun _ _ => by trivial⟩
  | succ d ih =>
      intro p b alpha beta halpha
      match hmv : legal_moves p b with
      | [] =>
          cases h2 : any_legal_move (opponent p) b with
          | false =>
              rw [minimax_term p b d evaluate hmv h2,
                alphabeta_term p b alpha beta d evaluate hmv h2]
              exact ⟨fun h => h, fun h => h, fun _ _ => by trivial⟩
          | true =>
              rw [minimax_pass p b d evaluate hmv h2,
                alphabeta_pass p b alpha beta d evaluate hmv h2]
              obtain ⟨ha, hb, hc⟩ := ih (opponent p) b (-beta) (-alpha) (by omega)
              simp only
              refine ⟨fun h => ?_, fun h => ?_, fun h1 h2 => ?_⟩
              · have := hb (by omega)
                omega
              · have := ha (by omega)
                omega
              · have := hc (by omega) (by omega)
                omega
      | m0 :: rest =>
          have hne : legal_moves p b ≠ [] := by rw [hmv]; simp
          set w := fun m : Int =>
            -(minimax (opponent p) (getOk (make_move m p b) b) d evaluate).1 with hwdef
          set f := fun (m : Int) (a : Int) =>
            -(alphabeta (opponent p) (getOk (make_move m p b) b) (-beta) (-a) d
                evaluate).1 with hfdef
          have hf : ∀ m a, a < beta →
              (w m ≤ a → f m a ≤ a) ∧ (beta ≤ w m → beta ≤ f m a) ∧
              (a < w m → w m < beta → f m a = w m) := by
            intro m a ha
            obtain ⟨h1, h2, h3⟩ :=
              ih (opponent p) (getOk (make_move m p b) b) (-beta) (-a) (by omega)
            refine ⟨fun h => ?_, fun h => ?_, fun hl hr => ?_⟩
            · have := h2 (by simp only [hwdef] at h; omega)
              simp only [hfdef]
              omega
            · have := h1 (by simp only [hwdef] at h; omega)
              simp only [hfdef]
              omega
            · have := h3 (by simp only [hwdef] at hr; omega) (by simp only [hwdef] at hl; omega)
              simp only [hfdef, hwdef]
              omega
          have hV : ((sortDesc wAt (legal_moves p b)).map w).foldl max alpha =
              max alpha ((minimax p b (d + 1) evaluate).1) := by
            have hperm : ((sortDesc wAt (legal_moves p b)).map w).Perm
                ((legal_moves p b).map w) := (sortDesc_perm wAt (legal_moves p b)).map w
            rw [foldl_max_perm hperm alpha, hmv, List.map_cons, List.foldl_cons,
              foldl_max_shift, minimax_val_foldl p b d evaluate m0 rest hmv]
          have hloop := abLoop_correct beta f w hf (sortDesc wAt (legal_moves p b)) alpha
            ((sortDesc wAt (legal_moves p b)).headD 0) halpha
          rw [hV] at hloop
          rw [alphabeta_succ p b alpha beta d evaluate hne, ← hfdef]
          simp only
          set v := (minimax p b (d + 1) evaluate).1 with hvdef
          refine ⟨fun h => ?_, fun h => ?_, fun h1 h2 => ?_⟩
          · have heq : max alpha v = alpha := by omega
            rw [heq] at hloop
            have := hloop.1 (by omega)
            omega
          · exact hloop.2 (by omega)
          · have heq : max alpha v = v := by omega
            rw [heq] at hloop
            exact hloop.1 (by omega)

set_option maxRecDepth 4000 in
lemma min_lt_max_value : MIN_VALUE < MAX_VALUE := by decide

/-- C2 (amended): for every player, board, depth and evaluator whose values lie
within [MIN_VALUE, MAX_VALUE], `alphabeta` called with the full window
(MIN_VALUE, MAX_VALUE) returns the same value as `minimax` (the chosen moves
may differ under ties). -/
theorem C2_alphabeta_equals_minimax (p : Cell) (b : Board) (depth : Nat)
    (evaluate : Cell → Board → Int)
    (hev : ∀ q c, MIN_VALUE ≤ evaluate q c ∧ evaluate q c ≤ MAX_VALUE) :
    (alphabeta p b MIN_VALUE MAX_VALUE depth evaluate).1 = (minimax p b depth evaluate).1 := by
  have hmm := minimax_bounds evaluate hev depth p b
  have hab := alphabeta_bounds evaluate hev depth p b MIN_VALUE MAX_VALUE
  have h := ab_minimax evaluate depth p b MIN_VALUE MAX_VALUE min_lt_max_value
  have hlt := min_lt_max_value
  by_cases h1 : (minimax p b depth evaluate).1 ≤ MIN_VALUE
  · have := h.1 h1
    omega
  · by_cases h2 : MAX_VALUE ≤ (minimax p b depth evaluate).1
    · have := h.2.1 h2
      omega
    · exact h.2.2 (by omega) (by omega)

set_option maxRecDepth 8000 in
/-- The claim as stated (over every evaluator) is refuted: with the constant
evaluator MAX_VALUE + 1, whose values exceed the window, minimax at depth 1 on
the initial board returns -(MAX_VALUE + 1) while alphabeta returns MIN_VALUE. -/
theorem C2_counterexample :
    (alphabeta Cell.Black initial_board MIN_VALUE MAX_VALUE 1 bigEval).1 ≠
      (minimax Cell.Black initial_board 1 bigEval).1 := by decide

/-- Closed instance of C2 (amended): the zero evaluator on the initial board. -/
theorem C2_alphabeta_equals_minimax_witness :
    (∀ q c, MIN_VALUE ≤ zeroEval q c ∧ zeroEval q c ≤ MAX_VALUE) ∧
    (alphabeta Cell.Black initial_board MIN_VALUE MAX_VALUE 1 zeroEval).1 =
      (minimax Cell.Black initial_board 1 zeroEval).1 := by
  have hz : ∀ q c, MIN_VALUE ≤ zeroEval q c ∧ zeroEval q c ≤ MAX_VALUE := by
    intro q c
    have h1 := max_value_pos
    have h2 : MIN_VALUE = -MAX_VALUE := rfl
    constructor
    · show MIN_VALUE ≤ (0 : Int)
      omega
    · show (0 : Int) ≤ MAX_VALUE
      omega
  exact ⟨hz, C2_alphabeta_equals_minimax Cell.Black initial_board 1 zeroEval hz⟩

/-! ## Cell updates -/

lemma setCell_length (b : Board) (i : Int) (v : Cell) : (setCell b i v).length = b.length := by
  unfold setCell
  split <;> simp

lemma cellAt_setCell_self {b : Board} {i : Int} (h0 : 0 ≤ i) (hlen : i.toNat < b.length)
    (v : Cell) : cellAt (setCell b i v) i = v := by
  unfold setCell cellAt
  rw [if_neg (by omega), if_neg (by omega)]
  simp [List.getD_eq_getElem?_getD, List.getElem?_set_self, hlen]

lemma cellAt_setCell_ne {b : Board} {i x : Int} (h : i ≠ x) (v : Cell) :
    cellAt (setCell b x v) i = cellAt b i := by
  unfold setCell cellAt
  by_cases hx : x < 0
  · rw [if_pos hx]
  · rw [if_neg hx]
    by_cases hi : i < 0
    · rw [if_pos hi, if_pos hi]
    · rw [if_neg hi, if_neg hi]
      have hne : x.toNat ≠ i.toNat := by omega
      simp [List.getD_eq_getElem?_getD, List.getElem?_set_ne hne]

/-! ## The flip loop -/

lemma ray_index_inj {d : Int} (hd0 : d ≠ 0) {move : Int} {t K : Nat}
    (h : move + (t : Int) * d = move + (K : Int) * d) : t = K := by
  have h2 : (t : Int) * d = (K : Int) * d := by linarith
  have h3 := mul_right_cancel₀ hd0 h2
  exact_mod_cast h3

lemma inFlipRange_iff {move d : Int} {t K : Nat} {i : Int} :
    inFlipRange move d t K i = true ↔
      ∃ j : Nat, t ≤ j ∧ j < K ∧ i = move + (j : Int) * d := by
  unfold inFlipRange
  simp only [List.any_eq_true, List.mem_range, Bool.and_eq_true, decide_eq_true_eq,
    beq_iff_eq]
  constructor
  · rintro ⟨j, hjK, htj, he⟩
    exact ⟨j, htj, hjK, he⟩
  · rintro ⟨j, htj, hjK, he⟩
    exact ⟨j, hjK, htj, he⟩

lemma flipLoop_length (p : Cell) (d br : Int) :
    ∀ (fuel : Nat) (sq : Int) (bb : Board), (flipLoop p d br fuel sq bb).length = bb.length := by
  intro fuel
  induction fuel with
  | zero => intro sq bb; rfl
  | succ fuel ih =>
      intro sq bb
      simp only [flipLoop]
      split
      · rfl
      · rw [ih, setCell_length]

lemma flipLoop_char (p : Cell) {d : Int} (hd0 : d ≠ 0) (move : Int) (K : Nat)
    (hin : ∀ j : Nat, 1 ≤ j → j < K →
      0 ≤ move + (j : Int) * d ∧ (move + (j : Int) * d).toNat < 100) :
    ∀ (fuel t : Nat) (bb : Board), bb.length = 100 → 1 ≤ t → t ≤ K → K - t ≤ fuel →
      ∀ i : Int,
        cellAt (flipLoop p d (move + (K : Int) * d) fuel (move + (t : Int) * d) bb) i =
          (if inFlipRange move d t K i = true then p else cellAt bb i) := by
  intro fuel
  induction fuel with
  | zero =>
      intro t bb hlen ht1 htK hfuel i
      have ht : t = K := by omega
      subst ht
      have hc : inFlipRange move d t t i = false := by
        rw [Bool.eq_false_iff]
        intro hc
        obtain ⟨j, h1, h2, _⟩ := inFlipRange_iff.mp hc
        omega
      simp only [flipLoop, hc]
      simp
  | succ fuel ih =>
      intro t bb hlen ht1 htK hfuel i
      by_cases ht : t = K
      · subst ht
        have hc : inFlipRange move d t t i = false := by
          rw [Bool.eq_false_iff]
          intro hc
          obtain ⟨j, h1, h2, _⟩ := inFlipRange_iff.mp hc
          omega
        simp only [flipLoop, if_pos rfl, hc]
        simp
      · have htK' : t < K := by omega
        simp only [flipLoop]
        rw [if_neg (fun he => ht (ray_index_inj hd0 he))]
        have harith : move + (t : Int) * d + d = move + ((t + 1 : Nat) : Int) * d := by
          push_cast
          ring
        rw [harith,
          ih (t + 1) (setCell bb (move + (t : Int) * d) p) (by rw [setCell_length]; exact hlen)
            (by omega) (by omega) (by omega) i]
        by_cases h1 : inFlipRange move d (t + 1) K i = true
        · rw [if_pos h1]
          obtain ⟨j, hj1, hj2, he⟩ := inFlipRange_iff.mp h1
          rw [if_pos (inFlipRange_iff.mpr ⟨j, by omega, hj2, he⟩)]
        · rw [if_neg h1]
          by_cases h2 : i = move + (t : Int) * d
          · rw [if_pos (inFlipRange_iff.mpr ⟨t, le_refl t, htK', h2⟩)]
            rw [h2]
            exact cellAt_setCell_self (hin t ht1 htK').1 (by rw [hlen]; exact (hin t ht1 htK').2) p
          · have h3 : ¬(inFlipRange move d t K i = true) := by
              intro hc
              obtain ⟨j, hj1, hj2, he⟩ := inFlipRange_iff.mp hc
              by_cases hjt : j = t
              · subst hjt
                exact h2 he
              · exact h1 (inFlipRange_iff.mpr ⟨j, by omega, hj2, he⟩)
            rw [if_neg h3, cellAt_setCell_ne h2]

/-! ## Flip description -/

lemma betweenB_iff {move d bracket i : Int} :
    betweenB move d bracket i = true ↔
      ∃ j K : Nat, j < 100 ∧ K < 100 ∧ 1 ≤ j ∧ j < K ∧ i = move + (j : Int) * d ∧
        bracket = move + (K : Int) * d := by
  unfold betweenB
  simp only [List.any_eq_true, List.mem_range, Bool.and_eq_true, decide_eq_true_eq,
    beq_iff_eq]
  constructor
  · rintro ⟨j, hj100, ⟨⟨hj1, hie⟩, K, hK100, hjK, hbe⟩⟩
    exact ⟨j, K, hj100, hK100, hj1, hjK, hie, hbe⟩
  · rintro ⟨j, K, hj100, hK100, hj1, hjK, hie, hbe⟩
    exact ⟨j, hj100, ⟨⟨hj1, hie⟩, K, hK100, hjK, hbe⟩⟩

lemma betweenB_ray {move d : Int} (hd0 : d ≠ 0) {K : Nat} (hK1 : 1 ≤ K) (hK : K < 100)
    (i : Int) : betweenB move d (move + (K : Int) * d) i = inFlipRange move d 1 K i := by
  by_cases hf : inFlipRange move d 1 K i = true
  · rw [hf]
    obtain ⟨j, hj1, hjK, he⟩ := inFlipRange_iff.mp hf
    exact betweenB_iff.mpr ⟨j, K, by omega, hK, hj1, hjK, he, rfl⟩
  · have hf' : inFlipRange move d 1 K i = false := by rwa [Bool.not_eq_true] at hf
    rw [hf', Bool.eq_false_iff]
    intro hb
    obtain ⟨j, K2, _, _, hj1, hjK2, he, hbe⟩ := betweenB_iff.mp hb
    have hKK : K = K2 := ray_index_inj hd0 hbe
    subst hKK
    exact hf (inFlipRange_iff.mpr ⟨j, hj1, hjK2, he⟩)

lemma flippedInB_iff {ds : List Int} {move : Int} {p : Cell} {b : Board} {i : Int} :
    flippedInB ds move p b i = true ↔
      ∃ d ∈ ds, ∃ br, find_bracket move p b d = some br ∧ betweenB move d br i = true := by
  unfold flippedInB
  simp only [List.any_eq_true]
  constructor
  · rintro ⟨d, hd, hmatch⟩
    cases hfb : find_bracket move p b d with
    | none =>
        rw [hfb] at hmatch
        simp at hmatch
    | some br =>
        rw [hfb] at hmatch
        exact ⟨d, hd, br, hfb, hmatch⟩
  · rintro ⟨d, hd, br, hfb, hbet⟩
    refine ⟨d, hd, ?_⟩
    rw [hfb]
    exact hbet

lemma flippedInB_append (ds : List Int) (d : Int) (move : Int) (p : Cell) (b : Board)
    (i : Int) :
    flippedInB (ds ++ [d]) move p b i =
      (flippedInB ds move p b i ||
        (match find_bracket move p b d with
         | some br => betweenB move d br i
         | none => false)) := by
  unfold flippedInB
  rw [List.any_append]
  simp [List.any]

/-! ## One direction of flips preserves the invariant -/

lemma make_flips_step {b : Board} (hb : boardOk b = true) {move : Int} {p : Cell}
    (hmv : playableB move = true) {done : List Int} {d : Int}
    (hd : d ∈ DIRECTIONS) (hdnd : d ∉ done) (hdone : ∀ x ∈ done, x ∈ DIRECTIONS)
    {bc : Board} (hlen : bc.length = 100)
    (hinv : ∀ i : Int, cellAt bc i =
      (if i = move then p
       else if flippedInB done move p b i = true then p else cellAt b i)) :
    (make_flips move p bc d).length = 100 ∧
    ∀ i : Int, cellAt (make_flips move p bc d) i =
      (if i = move then p
       else if flippedInB (done ++ [d]) move p b i = true then p else cellAt b i) := by
  obtain ⟨K, hK1, hK9, hrun, hstop, hfbeq⟩ := fb_char hb hmv hd p
  have hd0 : d ≠ 0 := dir_ne_zero hd
  have hagree : ∀ j : Nat, 1 ≤ j → j ≤ K →
      cellAt bc (move + j * d) = cellAt b (move + j * d) := by
    intro j hj1 hjK
    rw [hinv]
    have hjd : (j : Int) * d ≠ 0 := mul_ne_zero (by exact_mod_cast Nat.one_le_iff_ne_zero.mp hj1) hd0
    rw [if_neg (fun he => hjd (by linarith))]
    have hfl : flippedInB done move p b (move + j * d) = false := by
      rw [Bool.eq_false_iff]
      intro hfl
      obtain ⟨d2, hd2, br2, hfb2, hbet2⟩ := flippedInB_iff.mp hfl
      have hd2dir := hdone d2 hd2
      have hd2ne : d2 ≠ d := fun he => hdnd (he ▸ hd2)
      obtain ⟨K2, hK21, hK29, hbre2, hrun2, hstop2⟩ := fb_some_K hb hmv hd2dir hfb2
      rw [hbre2, betweenB_ray (dir_ne_zero hd2dir) hK21 (by omega)] at hbet2
      obtain ⟨j2, hj21, hj2K, he2⟩ := inFlipRange_iff.mp hbet2
      have hplay2 : ∀ t : Nat, 1 ≤ t → t ≤ j2 → playableB (move + t * d2) = true := by
        intro t ht1 htj
        apply playable_of_cell hb
        have := hrun2 t ht1 (by omega)
        rcases opponent_BW p with h | h <;> rw [h] at this
        · exact Or.inl this
        · exact Or.inr this
      by_cases hjlt : j < K
      · have hplay : ∀ t : Nat, 1 ≤ t → t ≤ j → playableB (move + t * d) = true := by
          intro t ht1 htj
          apply playable_of_cell hb
          have := hrun t ht1 (by omega)
          rcases opponent_BW p with h | h <;> rw [h] at this
          · exact Or.inl this
          · exact Or.inr this
        exact rays_disjoint hmv hd hd2dir (fun he => hd2ne he.symm) j j2 hj1 hj21
          hplay hplay2 he2
      · have hjK2 : j = K := by omega
        subst hjK2
        have hcell2 := hrun2 j2 hj21 hj2K
        rw [← he2] at hcell2
        exact hstop hcell2
    rw [hfl]
    simp
  have hfbc : find_bracket move p bc d = find_bracket move p b d :=
    fb_congr bc b move p d K hK1 hK9 hrun hstop hagree
  cases hfb : find_bracket move p b d with
  | none =>
      have hmf : make_flips move p bc d = bc := by
        unfold make_flips
        rw [hfbc, hfb]
        simp [isTruthy]
      rw [hmf]
      refine ⟨hlen, ?_⟩
      intro i
      rw [hinv i, flippedInB_append, hfb]
      simp
  | some br =>
      have hbrp : playableB br = true := fb_some_playable hb hfb
      have hbrz : br ≠ 0 := by
        intro hz
        rw [hz] at hbrp
        exact absurd hbrp (by decide)
      obtain ⟨K2, hK21, hK29, hbre, hrun2, hstop2⟩ := fb_some_K hb hmv hd hfb
      have hmf : make_flips move p bc d =
          flipLoop p d br 100 (move + d) bc := by
        unfold make_flips
        rw [hfbc, hfb]
        simp [isTruthy, hbrz]
      have hin : ∀ j : Nat, 1 ≤ j → j < K2 →
          0 ≤ move + (j : Int) * d ∧ (move + (j : Int) * d).toNat < 100 := by
        intro j hj1 hjK
        have hcell := hrun2 j hj1 hjK
        have hplay : playableB (move + j * d) = true := by
          apply playable_of_cell hb
          rcases opponent_BW p with h | h <;> rw [h] at hcell
          · exact Or.inl hcell
          · exact Or.inr hcell
        have := playable_iff.mp hplay
        omega
      have hstart : move + d = move + ((1 : Nat) : Int) * d := by push_cast; ring
      have hchar := flipLoop_char p hd0 move K2 hin 100 1 bc hlen (le_refl 1) hK21 (by omega)
      rw [hmf, hbre, hstart]
      refine ⟨by rw [flipLoop_length]; exact hlen, ?_⟩
      intro i
      rw [hchar i]
      have happ : flippedInB (done ++ [d]) move p b i =
          (flippedInB done move p b i || inFlipRange move d 1 K2 i) := by
        rw [flippedInB_append, hfb]
        simp only
        rw [hbre, betweenB_ray hd0 hK21 (by omega)]
      by_cases hi : i = move
      · have hnotin : inFlipRange move d 1 K2 i = false := by
          rw [Bool.eq_false_iff]
          intro hc
          obtain ⟨j, hj1, hjK, he⟩ := inFlipRange_iff.mp hc
          have hjd : (j : Int) * d ≠ 0 :=
            mul_ne_zero (by exact_mod_cast Nat.one_le_iff_ne_zero.mp hj1) hd0
          rw [hi] at he
          exact hjd (by linarith)
        rw [hnotin]
        simp only [Bool.false_eq_true, if_false]
        rw [hinv i, if_pos hi, if_pos hi]
      · rw [if_neg hi]
        by_cases hfr : inFlipRange move d 1 K2 i = true
        · rw [if_pos hfr, happ, hfr]
          simp
        · have hfr' : inFlipRange move d 1 K2 i = false := by rwa [Bool.not_eq_true] at hfr
          rw [if_neg hfr, hinv i, if_neg hi, happ, hfr']
          simp only [Bool.or_false]

/-! ## All eight directions -/

lemma fold_flips_inv {b : Board} (hb : boardOk b = true) {move : Int} {p : Cell}
    (hmv : playableB move = true) :
    ∀ (rest done : List Int), done ++ rest = DIRECTIONS →
      ∀ bc : Board, bc.length = 100 →
        (∀ i : Int, cellAt bc i =
          (if i = move then p
           else if flippedInB done move p b i = true then p else cellAt b i)) →
        (rest.foldl (fun bb d => make_flips move p bb d) bc).length = 100 ∧
        ∀ i : Int, cellAt (rest.foldl (fun bb d => make_flips move p bb d) bc) i =
          (if i = move then p
           else if flippedB move p b i = true then p else cellAt b i) := by
  intro rest
  induction rest with
  | nil =>
      intro done hdr bc hlen hinv
      simp only [List.foldl_nil]
      rw [List.append_nil] at hdr
      subst hdr
      exact ⟨hlen, hinv⟩
  | cons d rest ih =>
      intro done hdr bc hlen hinv
      have hd : d ∈ DIRECTIONS := by
        rw [← hdr]
        exact List.mem_append_right done (List.mem_cons_self _ _)
      have hnodup := directions_nodup
      rw [← hdr] at hnodup
      have hdnd : d ∉ done := by
        intro hmem
        exact (List.nodup_append.mp hnodup).2.2 hmem (List.mem_cons_self _ _)
      have hdone : ∀ x ∈ done, x ∈ DIRECTIONS := by
        intro x hx
        rw [← hdr]
        exact List.mem_append_left _ hx
      obtain ⟨hlen2, hinv2⟩ := make_flips_step hb hmv hd hdnd hdone hlen hinv
      simp only [List.foldl_cons]
      exact ih (done ++ [d]) (by rw [← hdr]; simp) _ hlen2 hinv2

lemma make_move_char {b : Board} (hb : boardOk b = true) {move : Int} {p : Cell}
    (hl : is_legal move p b = true) :
    ∃ b2 : Board, make_move move p b = Except.ok b2 ∧ b2.length = 100 ∧
      ∀ i : Int, cellAt b2 i =
        (if i = move then p
         else if flippedB move p b i = true then p else cellAt b i) := by
  have hmv : playableB move = true := legal_playable hb hl
  have hlen : b.length = 100 := length_of_boardOk hb
  have hbase : ∀ i : Int, cellAt (setCell b move p) i =
      (if i = move then p
       else if flippedInB [] move p b i = true then p else cellAt b i) := by
    intro i
    by_cases hi : i = move
    · subst hi
      rw [if_pos rfl]
      exact cellAt_setCell_self (by have := playable_iff.mp hmv; omega)
        (by have := playable_iff.mp hmv; omega) p
    · rw [if_neg hi]
      have hfl : flippedInB [] move p b i = false := rfl
      rw [hfl]
      simp only [Bool.false_eq_true, if_false]
      exact cellAt_setCell_ne hi p
  obtain ⟨hlen2, hinv2⟩ := fold_flips_inv hb hmv DIRECTIONS [] rfl (setCell b move p)
    (by rw [setCell_length]; exact hlen) hbase
  refine ⟨_, ?_, hlen2, hinv2⟩
  unfold make_move
  rw [if_neg (by rw [hl]; simp)]

/-- C1: for every (well-formed) board, move and player, `make_move` raises
`IllegalMoveError` carrying exactly that player, move and (unchanged) board iff
`is_legal` is false; when `is_legal` is true it returns a board whose move cell
holds the player, whose cells strictly between the move and a bracket of some
direction hold the player, and whose other cells are unchanged. -/
theorem C1_make_move (move : Int) (p : Cell) (b : Board) (hb : boardOk b = true) :
    (make_move move p b = Except.error ⟨p, move, b⟩ ↔ is_legal move p b = false) ∧
    (is_legal move p b = true →
      ∃ b2 : Board, make_move move p b = Except.ok b2 ∧
        ∀ i : Int, cellAt b2 i =
          (if i = move then p
           else if flippedB move p b i = true then p else cellAt b i)) := by
  constructor
  · constructor
    · intro h
      by_cases hleg : is_legal move p b = true
      · obtain ⟨b2, hok, _, _⟩ := make_move_char hb hleg
        rw [hok] at h
        exact absurd h (by simp)
      · rwa [Bool.not_eq_true] at hleg
    · intro h
      unfold make_move
      rw [if_pos h]
  · intro hleg
    obtain ⟨b2, hok, _, hchar⟩ := make_move_char hb hleg
    exact ⟨b2, hok, hchar⟩

set_option maxRecDepth 100000 in
set_option maxHeartbeats 2000000 in
/-- Closed instance of C1: move 34 by BLACK on the initial board. -/
theorem C1_make_move_witness :
    boardOk initial_board = true ∧
    ((make_move 34 Cell.Black initial_board =
        Except.error ⟨Cell.Black, 34, initial_board⟩ ↔
          is_legal 34 Cell.Black initial_board = false) ∧
      (is_legal 34 Cell.Black initial_board = true →
        ∃ b2 : Board, make_move 34 Cell.Black initial_board = Except.ok b2 ∧
          ∀ i : Int, cellAt b2 i =
            (if i = 34 then Cell.Black
             else if flippedB 34 Cell.Black initial_board i = true then Cell.Black
             else cellAt initial_board i))) :=
  ⟨by decide, C1_make_move 34 Cell.Black initial_board (by decide)⟩

/-- C6: every non-playable index of the initial board holds OUTER, and a
successful `make_move` never writes a non-playable cell: the frame outside the
playable region is preserved and the border invariant is maintained. -/
theorem C6_border_invariant :
    (∀ i : Int, playableB i = false → cellAt initial_board i = Cell.Outer) ∧
    (∀ (move : Int) (p : Cell) (b b2 : Board), boardOk b = true →
      make_move move p b = Except.ok b2 →
      ((∀ i : Int, playableB i = false → cellAt b2 i = cellAt b i) ∧
        boardOk b2 = true)) := by
  constructor
  · intro i hi
    exact cellAt_outer (by decide) i hi
  · intro move p b b2 hb hok
    have hleg : is_legal move p b = true := by
      by_contra h
      rw [Bool.not_eq_true] at h
      unfold make_move at hok
      rw [if_pos h] at hok
      exact absurd hok (by simp)
    obtain ⟨b2', hok', hlen', hchar⟩ := make_move_char hb hleg
    rw [hok'] at hok
    injection hok with hb2
    subst hb2
    have hmv := legal_playable hb hleg
    have hframe : ∀ i : Int, playableB i = false → cellAt b2' i = cellAt b i := by
      intro i hi
      rw [hchar i]
      have hne : i ≠ move := by
        intro he
        rw [he, hmv] at hi
        exact absurd hi (by simp)
      rw [if_neg hne]
      have hfl : flippedB move p b i = false := by
        rw [Bool.eq_false_iff]
        intro hfl
        obtain ⟨d, hd, br, hfb, hbet⟩ := flippedInB_iff.mp hfl
        obtain ⟨K, hK1, hK9, hbre, hrun, hstop⟩ := fb_some_K hb hmv hd hfb
        rw [hbre, betweenB_ray (dir_ne_zero hd) hK1 (by omega)] at hbet
        obtain ⟨j, hj1, hjK, he⟩ := inFlipRange_iff.mp hbet
        have hcell := hrun j hj1 hjK
        rw [← he] at hcell
        have hpl : playableB i = true := by
          apply playable_of_cell hb
          rcases opponent_BW p with h | h <;> rw [h] at hcell
          · exact Or.inl hcell
          · exact Or.inr hcell
        rw [hpl] at hi
        exact absurd hi (by simp)
      rw [hfl]
      simp
    refine ⟨hframe, ?_⟩
    unfold boardOk
    simp only [Bool.and_eq_true, beq_iff_eq, List.all_eq_true, List.mem_range,
      Bool.or_eq_true]
    refine ⟨hlen', ?_⟩
    intro n hn
    by_cases hp : playableB (n : Int) = true
    · left
      exact hp
    · right
      have hp' : playableB (n : Int) = false := by rwa [Bool.not_eq_true] at hp
      have h1 := hframe (n : Int) hp'
      have h2 := cellAt_outer hb (n : Int) hp'
      rw [← cellAt_natCast b2' n, h1]
      exact h2

lemma make_move_eq_ok_getOk {move : Int} {p : Cell} {b : Board}
    (hl : is_legal move p b = true) :
    make_move move p b = Except.ok (getOk (make_move move p b) b) := by
  unfold make_move
  rw [if_neg (by rw [hl]; simp)]
  rfl

set_option maxRecDepth 100000 in
/-- Closed instance of C6: the frame of move 34 by BLACK on the initial board. -/
theorem C6_border_invariant_witness :
    boardOk initial_board = true ∧
    make_move 34 Cell.Black initial_board = Except.ok c6Board ∧
    ((∀ i : Int, playableB i = false → cellAt c6Board i = cellAt initial_board i) ∧
      boardOk c6Board = true) :=
  ⟨by decide, make_move_eq_ok_getOk (by decide),
    (C6_border_invariant.2 34 Cell.Black initial_board c6Board (by decide)
      (make_move_eq_ok_getOk (by decide)))⟩

set_option maxRecDepth 100000 in
/-- C8 evaluated at the failing input: with the entry `(wins, losses, estimate)
= (2, 5, 3/10)` already present for the terminal always-winning `fullBlack`
board, `random_score` with 2 playouts stores wins = 7 (the stored LOSSES 5 plus
the 2 new wins) and losses = 3/10 (the stored ESTIMATE), instead of the claimed
accumulation wins = 2 + 2 = 4 and losses = 5 + 0 = 5: the source unpacks
`value, wins, losses = self.scores[board_s]` although entries are stored as
`(wins, losses, estimate)`. -/
theorem C8_random_score_misbinding :
    lookupT (random_scoreH Cell.Black 0 2 c8Table [] 2 [fullBlack]).1.2.1 fullBlack =
      some (some 7, some (3 / 10), some (70 / 73)) ∧
    ¬ lookupT (random_scoreH Cell.Black 0 2 c8Table [] 2 [fullBlack]).1.2.1 fullBlack =
      some (some 4, some 5, some (4 / 9)) := by
  have hplay : random_playoutH [] 2 Cell.Black 0 [fullBlack] = (64, [fullBlack], []) := by
    decide
  have hread : readB [fullBlack] 0 = fullBlack := rfl
  have hlook : lookupT c8Table fullBlack = some (some 2, some 5, some (3 / 10)) := rfl
  have hrange : List.range 2 = [0, 1] := rfl
  have hmain : (random_scoreH Cell.Black 0 2 c8Table [] 2 [fullBlack]).1.2.1 =
      insertT c8Table fullBlack
        (addP (addP (some 5) (some 1)) (some 1), some (3 / 10),
          divP (addP (addP (some 5) (some 1)) (some 1))
            (addP (addP (addP (some 5) (some 1)) (some 1)) (some (3 / 10)))) := by
    simp only [random_scoreH, hread, hlook, hrange, List.foldl_cons, List.foldl_nil, hplay]
    norm_num [hplay]
  rw [hmain]
  have hfin : lookupT
      (insertT c8Table fullBlack
        (addP (addP (some 5) (some 1)) (some 1), some (3 / 10),
          divP (addP (addP (some 5) (some 1)) (some 1))
            (addP (addP (addP (some 5) (some 1)) (some 1)) (some (3 / 10)))))
      fullBlack =
      some (addP (addP (some 5) (some 1)) (some 1), some (3 / 10),
        divP (addP (addP (some 5) (some 1)) (some 1))
          (addP (addP (addP (some 5) (some 1)) (some 1)) (some (3 / 10)))) := by
    simp [insertT, lookupT]
  rw [hfin]
  have h7 : addP (addP (some 5) (some 1)) (some 1) = some (7 : ℚ) := by
    simp [addP]
    norm_num
  have hdiv : divP (some (7 : ℚ)) (addP (some (7 : ℚ)) (some ((3 : ℚ) / 10))) =
      some ((70 : ℚ) / 73) := by
    simp [addP, divP]
    norm_num
  rw [h7] at hfin ⊢
  rw [hdiv]
  constructor
  · rfl
  · intro hcontra
    injection hcontra with h
    have h1 : (7 : ℚ) = 4 := by
      have h2 := congrArg Prod.fst h
      simp at h2
    norm_num at h1

/-! ## Heap extension: the searchers only allocate and write fresh objects -/

lemma heapExt_refl (h : Heap) : HeapExt h h := ⟨le_refl _, fun _ _ => rfl⟩

lemma heapExt_trans {h1 h2 h3 : Heap} (a : HeapExt h1 h2) (b : HeapExt h2 h3) :
    HeapExt h1 h3 :=
  ⟨le_trans a.1 b.1, fun j hj => (b.2 j (lt_of_lt_of_le hj a.1)).trans (a.2 j hj)⟩

lemma allocB_ext (h : Heap) (bd : Board) : HeapExt h (allocB h bd).1 := by
  constructor
  · simp [allocB]
  · intro j hj
    unfold readB allocB
    simp only
    rw [List.getD_append _ _ _ _ hj]

lemma writeB_ext {h h2 : Heap} (hext : HeapExt h h2) {r : Nat} (hr : h.length ≤ r)
    (bd : Board) : HeapExt h (writeB h2 r bd) := by
  constructor
  · unfold writeB
    simp only [List.length_set]
    exact hext.1
  · intro j hj
    have h2j := hext.2 j hj
    unfold writeB readB at h2j ⊢
    have hne : r ≠ j := by omega
    simp only [List.getD_eq_getElem?_getD] at h2j ⊢
    rw [List.getElem?_set_ne hne]
    exact h2j

lemma make_moveH_ext {h h2 : Heap} (hext : HeapExt h h2) {r : Nat} (hr : h.length ≤ r)
    (move : Int) (p : Cell) : HeapExt h (make_moveH move p r h2) :=
  writeB_ext hext hr _

lemma alloc_write_ext {h h2 : Heap} (hext : HeapExt h h2) (move : Int) (p : Cell)
    (bd : Board) :
    HeapExt h (make_moveH move p (allocB h2 bd).2 (allocB h2 bd).1) :=
  make_moveH_ext (heapExt_trans hext (allocB_ext h2 bd)) hext.1 move p

lemma foldl_heap_ext {α β : Type} (g : β → Heap) (f : β → α → β)
    (hf : ∀ acc x, HeapExt (g acc) (g (f acc x))) :
    ∀ (l : List α) (init : β), HeapExt (g init) (g (l.foldl f init)) := by
  intro l
  induction l with
  | nil => intro init; exact heapExt_refl _
  | cons x xs ih =>
      intro init
      simp only [List.foldl_cons]
      exact heapExt_trans (hf init x) (ih (f init x))

lemma abLoopH_ext (beta : Int) (f : Int → Int → Heap → Int × Heap)
    (hf : ∀ m a hh, HeapExt hh (f m a hh).2) :
    ∀ (ms : List Int) (alpha best : Int) (h : Heap),
      HeapExt h (abLoopH beta f ms alpha best h).2 := by
  intro ms
  induction ms with
  | nil => intro alpha best h; exact heapExt_refl h
  | cons m ms ih =>
      intro alpha best h
      simp only [abLoopH]
      by_cases h1 : beta ≤ alpha
      · rw [if_pos h1]
        exact heapExt_refl h
      · rw [if_neg h1]
        by_cases h2 : alpha < (f m alpha h).1
        · rw [if_pos h2]
          exact heapExt_trans (hf m alpha h) (ih _ _ _)
        · rw [if_neg h2]
          exact heapExt_trans (hf m alpha h) (ih _ _ _)

lemma minimaxH_ext : ∀ (d : Nat) (p : Cell) (r : Nat) (ev : Cell → Board → Int) (h : Heap),
    HeapExt h (minimaxH p r d ev h).2 := by
  intro d
  induction d with
  | zero => intro p r ev h; exact heapExt_refl h
  | succ d ih =>
      intro p r ev h
      simp only [minimaxH]
      by_cases h1 : (legal_moves p (readB h r)).isEmpty
      · rw [if_pos h1]
        by_cases h2 : !any_legal_move (opponent p) (readB h r)
        · rw [if_pos h2]
          exact heapExt_refl h
        · rw [if_neg h2]
          exact ih (opponent p) r ev h
      · rw [if_neg h1]
        exact foldl_heap_ext (fun acc : List (Int × Int) × Heap => acc.2)
          (fun acc m =>
            ((acc.1 ++
                [(-(minimaxH (opponent p) (allocB acc.2 (readB acc.2 r)).2 d ev
                    (make_moveH m p (allocB acc.2 (readB acc.2 r)).2
                      (allocB acc.2 (readB acc.2 r)).1)).1.1, m)]),
              (minimaxH (opponent p) (allocB acc.2 (readB acc.2 r)).2 d ev
                (make_moveH m p (allocB acc.2 (readB acc.2 r)).2
                  (allocB acc.2 (readB acc.2 r)).1)).2))
          (fun acc m =>
            heapExt_trans (alloc_write_ext (heapExt_refl acc.2) m p (readB acc.2 r))
              (ih (opponent p) (allocB acc.2 (readB acc.2 r)).2 ev
                (make_moveH m p (allocB acc.2 (readB acc.2 r)).2
                  (allocB acc.2 (readB acc.2 r)).1)))
          (legal_moves p (readB h r)) ([], h)

lemma alphabetaH_ext : ∀ (d : Nat) (p : Cell) (r : Nat) (alpha beta : Int)
    (ev : Cell → Board → Int) (h : Heap),
    HeapExt h (alphabetaH p r alpha beta d ev h).2 := by
  intro d
  induction d with
  | zero => intro p r alpha beta ev h; exact heapExt_refl h
  | succ d ih =>
      intro p r alpha beta ev h
      simp only [alphabetaH]
      by_cases h1 : (sortDesc wAt (legal_moves p (readB h r))).isEmpty
      · rw [if_pos h1]
        by_cases h2 : !any_legal_move (opponent p) (readB h r)
        · rw [if_pos h2]
          exact heapExt_refl h
        · rw [if_neg h2]
          exact ih (opponent p) r (-beta) (-alpha) ev h
      · rw [if_neg h1]
        exact abLoopH_ext beta _
          (fun m a hh =>
            heapExt_trans (alloc_write_ext (heapExt_refl hh) m p (readB hh r))
              (ih (opponent p) _ (-beta) (-a) ev _))
          _ _ _ h

lemma random_playoutH_ext : ∀ (fuel : Nat) (rng : List Nat) (p : Cell) (r : Nat) (h : Heap),
    HeapExt h (random_playoutH rng fuel p r h).2.1 := by
  intro fuel
  induction fuel with
  | zero => intro rng p r h; exact heapExt_refl h
  | succ fuel ih =>
      intro rng p r h
      simp only [random_playoutH]
      by_cases h1 : (legal_moves p (readB h r)).isEmpty = false
      · rw [if_pos h1]
        exact heapExt_trans
          (alloc_write_ext (heapExt_refl h) _ p (readB h r))
          (ih rng.tail (opponent p) _ _)
      · rw [if_neg h1]
        by_cases h2 : (legal_moves (opponent p) (readB h r)).isEmpty = false
        · rw [if_pos h2]
          exact ih rng (opponent p) r h
        · rw [if_neg h2]
          exact heapExt_refl h

lemma random_scoreH_ext (p : Cell) (r : Nat) (num : Nat) (t : Table) (rng : List Nat)
    (fuel : Nat) (h : Heap) : HeapExt h (random_scoreH p r num t rng fuel h).2 := by
  simp only [random_scoreH]
  refine foldl_heap_ext (fun acc : (PyFloat × PyFloat) × Heap × List Nat => acc.2.1)
    (fun acc x =>
      if 0 < (random_playoutH acc.2.2 fuel p r acc.2.1).1 then
        ((addP acc.1.1 (some 1), acc.1.2), (random_playoutH acc.2.2 fuel p r acc.2.1).2.1,
          (random_playoutH acc.2.2 fuel p r acc.2.1).2.2)
      else
        ((acc.1.1, addP acc.1.2 (some 1)), (random_playoutH acc.2.2 fuel p r acc.2.1).2.1,
          (random_playoutH acc.2.2 fuel p r acc.2.1).2.2))
    ?_ (List.range num)
    (((match lookupT t (readB h r) with
        | some trip => (trip.2.1, trip.2.2)
        | none => (some 0, some 0)).1,
      (match lookupT t (readB h r) with
        | some trip => (trip.2.1, trip.2.2)
        | none => (some 0, some 0)).2), h, rng)
  intro acc x
  dsimp only
  split
  · exact random_playoutH_ext fuel acc.2.2 p r acc.2.1
  · exact random_playoutH_ext fuel acc.2.2 p r acc.2.1

lemma tree_playoutH_ext : ∀ (fuel : Nat) (pick : List Int → Nat) (p : Cell) (r : Nat)
    (t : Table) (h : Heap), HeapExt h (tree_playoutH pick fuel p r t h).2 := by
  intro fuel
  induction fuel with
  | zero => intro pick p r t h; exact heapExt_refl h
  | succ fuel ih =>
      intro pick p r t h
      simp only [tree_playoutH]
      by_cases h1 : (legal_moves p (readB h r)).isEmpty = false
      · rw [if_pos h1]
        exact heapExt_trans
          (foldl_heap_ext (fun hh : Heap => hh)
            (fun hh m => make_moveH m p (allocB hh (readB hh r)).2 (allocB hh (readB hh r)).1)
            (fun hh m => alloc_write_ext (heapExt_refl hh) m p (readB hh r))
            (legal_moves p (readB h r)) h)
          (heapExt_trans
            (alloc_write_ext (heapExt_refl _) _ p _)
            (ih pick (opponent p) _ t _))
      · rw [if_neg h1]
        by_cases h2 : (legal_moves (opponent p) (readB h r)).isEmpty = false
        · rw [if_pos h2]
          exact ih pick (opponent p) r t h
        · rw [if_neg h2]
          exact heapExt_refl h

lemma monte_carlo1H_ext (p : Cell) (r : Nat) (t : Table) (rng : List Nat) (fuel : Nat)
    (h : Heap) : HeapExt h (monte_carlo1H p r t rng fuel h).2 := by
  simp only [monte_carlo1H]
  refine foldl_heap_ext
    (fun acc : List (Triple × Int) × Table × List Nat × Heap => acc.2.2.2)
    (fun acc m =>
      (acc.1 ++
          [((random_scoreH p (allocB acc.2.2.2 (readB acc.2.2.2 r)).2 10 acc.2.1 acc.2.2.1
                fuel
                (make_moveH m p (allocB acc.2.2.2 (readB acc.2.2.2 r)).2
                  (allocB acc.2.2.2 (readB acc.2.2.2 r)).1)).1.1, m)],
        (random_scoreH p (allocB acc.2.2.2 (readB acc.2.2.2 r)).2 10 acc.2.1 acc.2.2.1 fuel
            (make_moveH m p (allocB acc.2.2.2 (readB acc.2.2.2 r)).2
              (allocB acc.2.2.2 (readB acc.2.2.2 r)).1)).1.2.1,
        (random_scoreH p (allocB acc.2.2.2 (readB acc.2.2.2 r)).2 10 acc.2.1 acc.2.2.1 fuel
            (make_moveH m p (allocB acc.2.2.2 (readB acc.2.2.2 r)).2
              (allocB acc.2.2.2 (readB acc.2.2.2 r)).1)).1.2.2,
        (random_scoreH p (allocB acc.2.2.2 (readB acc.2.2.2 r)).2 10 acc.2.1 acc.2.2.1 fuel
            (make_moveH m p (allocB acc.2.2.2 (readB acc.2.2.2 r)).2
              (allocB acc.2.2.2 (readB acc.2.2.2 r)).1)).2))
    ?_ (legal_moves p (readB h r)) ([], t, rng, h)
  intro acc m
  dsimp only
  exact heapExt_trans
    (alloc_write_ext (heapExt_refl acc.2.2.2) m p (readB acc.2.2.2 r))
    (random_scoreH_ext p _ 10 acc.2.1 acc.2.2.1 fuel _)

lemma monte_carlo2H_ext (pick pick2 : List Int → Nat) (fuel : Nat) (p : Cell) (r : Nat)
    (h : Heap) : HeapExt h (monte_carlo2H pick pick2 fuel p r h).2 := by
  simp only [monte_carlo2H]
  exact heapExt_trans
    (foldl_heap_ext (fun acc : Table × Heap => acc.2)
      (fun acc x =>
        ((tree_playoutH pick fuel p r acc.1 acc.2).1.2,
          (tree_playoutH pick fuel p r acc.1 acc.2).2))
      (fun acc x => tree_playoutH_ext fuel pick p r acc.1 acc.2)
      (List.range 10) ([], h))
    (foldl_heap_ext (fun hh : Heap => hh)
      (fun hh m => make_moveH m p (allocB hh (readB hh r)).2 (allocB hh (readB hh r)).1)
      (fun hh m => alloc_write_ext (heapExt_refl hh) m p (readB hh r))
      (legal_moves p
        (readB (List.foldl
          (fun acc x =>
            ((tree_playoutH pick fuel p r acc.1 acc.2).1.2,
              (tree_playoutH pick fuel p r acc.1 acc.2).2))
          ([], h) (List.range 10)).2 r))
      (List.foldl
        (fun acc x =>
          ((tree_playoutH pick fuel p r acc.1 acc.2).1.2,
            (tree_playoutH pick fuel p r acc.1 acc.2).2))
        ([], h) (List.range 10)).2)

/-- C9: every search entry point — `minimax`, `alphabeta`, `random_playout`,
`tree_playout` and the two `monte_carlo` deciders, embedded over an explicit
heap of board objects — leaves the caller's board object unchanged: every
candidate move is applied to a freshly allocated copy (`list(board)`), never to
the caller's object in place. -/
theorem C9_callers_board_unchanged :
    (∀ (p : Cell) (r : Nat) (d : Nat) (ev : Cell → Board → Int) (h : Heap),
      r < h.length → readB (minimaxH p r d ev h).2 r = readB h r) ∧
    (∀ (p : Cell) (r : Nat) (alpha beta : Int) (d : Nat) (ev : Cell → Board → Int)
      (h : Heap), r < h.length → readB (alphabetaH p r alpha beta d ev h).2 r = readB h r) ∧
    (∀ (rng : List Nat) (fuel : Nat) (p : Cell) (r : Nat) (h : Heap),
      r < h.length → readB (random_playoutH rng fuel p r h).2.1 r = readB h r) ∧
    (∀ (pick : List Int → Nat) (fuel : Nat) (p : Cell) (r : Nat) (t : Table) (h : Heap),
      r < h.length → readB (tree_playoutH pick fuel p r t h).2 r = readB h r) ∧
    (∀ (p : Cell) (r : Nat) (t : Table) (rng : List Nat) (fuel : Nat) (h : Heap),
      r < h.length → readB (monte_carlo1H p r t rng fuel h).2 r = readB h r) ∧
    (∀ (pick pick2 : List Int → Nat) (fuel : Nat) (p : Cell) (r : Nat) (h : Heap),
      r < h.length → readB (monte_carlo2H pick pick2 fuel p r h).2 r = readB h r) :=
  ⟨fun p r d ev h hr => (minimaxH_ext d p r ev h).2 r hr,
    fun p r alpha beta d ev h hr => (alphabetaH_ext d p r alpha beta ev h).2 r hr,
    fun rng fuel p r h hr => (random_playoutH_ext fuel rng p r h).2 r hr,
    fun pick fuel p r t h hr => (tree_playoutH_ext fuel pick p r t h).2 r hr,
    fun p r t rng fuel h hr => (monte_carlo1H_ext p r t rng fuel h).2 r hr,
    fun pick pick2 fuel p r h hr => (monte_carlo2H_ext pick pick2 fuel p r h).2 r hr⟩

/-- Closed instance of C9: all six entry points run on a one-object heap
holding the initial board. -/
theorem C9_callers_board_unchanged_witness :
    0 < List.length [initial_board] ∧
    readB (minimaxH Cell.Black 0 1 zeroEval [initial_board]).2 0 = readB [initial_board] 0 ∧
    readB (alphabetaH Cell.Black 0 MIN_VALUE MAX_VALUE 1 zeroEval [initial_board]).2 0 =
      readB [initial_board] 0 ∧
    readB (random_playoutH [] 1 Cell.Black 0 [initial_board]).2.1 0 =
      readB [initial_board] 0 ∧
    readB (tree_playoutH (fun _ => 0) 1 Cell.Black 0 [] [initial_board]).2 0 =
      readB [initial_board] 0 ∧
    readB (monte_carlo1H Cell.Black 0 [] [] 1 [initial_board]).2 0 =
      readB [initial_board] 0 ∧
    readB (monte_carlo2H (fun _ => 0) (fun _ => 0) 1 Cell.Black 0 [initial_board]).2 0 =
      readB [initial_board] 0 :=
  ⟨by decide,
    C9_callers_board_unchanged.1 Cell.Black 0 1 zeroEval [initial_board] (by decide),
    C9_callers_board_unchanged.2.1 Cell.Black 0 MIN_VALUE MAX_VALUE 1 zeroEval
      [initial_board] (by decide),
    C9_callers_board_unchanged.2.2.1 [] 1 Cell.Black 0 [initial_board] (by decide),
    C9_callers_board_unchanged.2.2.2.1 (fun _ => 0) 1 Cell.Black 0 [] [initial_board]
      (by decide),
    C9_callers_board_unchanged.2.2.2.2.1 Cell.Black 0 [] [] 1 [initial_board] (by decide),
    C9_callers_board_unchanged.2.2.2.2.2 (fun _ => 0) (fun _ => 0) 1 Cell.Black 0
      [initial_board] (by decide)⟩

end Othello
